import Mathlib

/-!
# dgemv benchmark harness: kernel, accuracy checker, metrics and buffer layout

A shallow embedding of `dgemv-openmp.cpp` and `benchmark.cpp`.

Modelling conventions.

* A `double` is a rational number: every finite double is a dyadic rational.  Each
  double-precision operation is the exact rational operation followed by rounding to the
  nearest binary64 value, ties to even (`round64`, `fadd`, `fsub`, `fmul`, `fdiv`); the
  conversion `double → float` at the parameter of `fabsf` rounds to binary32 (`toFloat`).
  Infinities and NaN are not values of the model: a result beyond the largest finite
  number keeps its rounded magnitude, and a division by zero is left without meaning.
* Memory is one flat map from addresses to doubles; an address counts doubles, so
  `p + k` is the address of `p[k]`.  Pointers are addresses.
* The `int` and `size_t` expressions of the harness wrap modulo `2^32` (`wrapInt`) and
  `2^64` (`wrapSize`).  The index `i * n + j` of the kernel is its mathematical value:
  overflow of a signed index has no defined result, and `index_fits_int` gives the sizes
  for which there is none.
* The rows of the kernel run in turn.  The `+` reduction of the inner loop combines the
  products in an order OpenMP leaves open: the kernel takes that order as an argument
  (`Reduction`), and `Reduction.sequential` is the order of the loop as written.
-/

namespace Dgemv

/-! ## Data model -/

/-- Values of type `double`. -/
abbrev Double := ℚ

/-- Flat memory: the double stored at each address. -/
abbrev Mem := ℤ → Double

/-- The value of a 32-bit `int` expression: two-complement wrap-around of the exact result. -/
def wrapInt (z : ℤ) : ℤ := (z + 2 ^ 31) % 2 ^ 32 - 2 ^ 31

/-- The value of a `size_t` expression: the exact result modulo `2^64`. -/
def wrapSize (z : ℤ) : ℤ := z % 2 ^ 64

/-- The loop `for (int i = 0; i < n; i++) body(i)` acting on a state: the body runs for
`i = 0, 1, ..., n-1` in turn, and not at all when `n ≤ 0`. -/
def forLoop {σ : Type} (n : ℤ) (body : ℤ → σ → σ) (s : σ) : σ :=
  (List.range n.toNat).foldl (fun acc i => body (i : ℤ) acc) s

/-- The assignment `*a = v`: the cell at address `a` receives `v`. -/
def store (m : Mem) (a : ℤ) (v : Double) : Mem := fun b => if b = a then v else m b

/-- Two address ranges `[p, p+len)` and `[q, q+len2)` that do not overlap. -/
def separate (p len q len2 : ℤ) : Prop := p + len ≤ q ∨ q + len2 ≤ p

instance (p len q len2 : ℤ) : Decidable (separate p len q len2) := by
  unfold separate; infer_instance

/-! ## Binary floating-point arithmetic -/

/-- Rounding of a nonnegative rational to the nearest integer, ties to even. -/
def roundHalfEven (q : ℚ) : ℤ :=
  if q - ⌊q⌋ < 1 / 2 then ⌊q⌋
  else if 1 / 2 < q - ⌊q⌋ then ⌊q⌋ + 1
  else if ⌊q⌋ % 2 = 0 then ⌊q⌋ else ⌊q⌋ + 1

/-- Rounding to the nearest binary floating-point number with a significand of `prec`
bits and least exponent `emin`, ties to even: the argument is scaled by its unit in the
last place, rounded to an integer, and scaled back. -/
def roundBinary (prec : ℕ) (emin : ℤ) (x : ℚ) : ℚ :=
  if x = 0 then 0
  else
    let ulp : ℚ := 2 ^ (max (Int.log 2 |x|) emin - ((prec : ℤ) - 1))
    if x < 0 then -((roundHalfEven (|x| / ulp) : ℚ) * ulp)
    else (roundHalfEven (|x| / ulp) : ℚ) * ulp

/-- The conversion `double → float`: rounding to binary32 (24-bit significand, least
exponent `-126`). -/
def toFloat (x : Double) : ℚ := roundBinary 24 (-126) x

/-- Rounding of an exact result to binary64 (53-bit significand, least exponent `-1022`). -/
def round64 (x : ℚ) : Double := roundBinary 53 (-1022) x

/-- The numbers that are doubles. -/
def isDouble (x : ℚ) : Prop := round64 x = x

/-- The numbers that are integers. -/
def isInteger (x : ℚ) : Prop := ((⌊x⌋ : ℤ) : ℚ) = x

/-- The operation `a + b` on doubles. -/
def fadd (a b : Double) : Double := round64 (a + b)

/-- The operation `a - b` on doubles. -/
def fsub (a b : Double) : Double := round64 (a - b)

/-- The operation `a * b` on doubles. -/
def fmul (a b : Double) : Double := round64 (a * b)

/-- The operation `a / b` on doubles, for a divisor other than zero. -/
def fdiv (a b : Double) : Double := round64 (a / b)

/-- A decimal literal of type `double`: the double nearest to the number written. -/
def lit (q : ℚ) : Double := round64 q

/-- The conversion of an integer value to `double`. -/
def ofInt (z : ℤ) : Double := round64 z

/-- The function `float fabsf(float)` applied to a `double` argument. -/
def fabsf (x : Double) : ℚ := |toFloat x|

/-! ## The kernel (`dgemv-openmp.cpp`) -/

/-- An order in which a `+` reduction combines the summands of the iterations: `term j`
is the summand of iteration `j`, `zero` the initial value `0.0` of `result` or of a private
copy, `plus` one addition. -/
inductive Reduction
  | zero
  | term (j : ℕ)
  | plus (l r : Reduction)

namespace Reduction

/-- The double a reduction order produces from the summands `p`. -/
def eval (p : ℕ → Double) : Reduction → Double
  | zero => 0
  | term j => p j
  | plus l r => fadd (eval p l) (eval p r)

/-- How often the summand of iteration `j` enters. -/
def count (j : ℕ) : Reduction → ℕ
  | zero => 0
  | term k => if k = j then 1 else 0
  | plus l r => count j l + count j r

/-- A reduction order for a loop of `n` iterations: every iteration `j < n` contributes its
summand once, and nothing else does. -/
def covers (r : Reduction) (n : ℕ) : Prop := ∀ j, r.count j = if j < n then 1 else 0

/-- The order of the loop as written, which is also that of a team of one thread:
`(((0.0 + p 0) + p 1) + ...) + p (n-1)`. -/
def sequential : ℕ → Reduction
  | 0 => zero
  | k + 1 => plus (sequential k) (term k)

end Reduction

/-- The body of the row loop of `my_dgemv`:
`double result = 0.0; for (j...) result += A[i * n + j] * x[j]; y[i] += result;`
with the products reduced in the order `sched i`.  The index `i * n + j` is its
mathematical value; `index_fits_int` gives the sizes for which the `int` computation of
the source yields it. -/
def my_dgemv_row (sched : ℤ → Reduction) (n A x y : ℤ) (i : ℤ) (m : Mem) : Mem :=
  let result : Double :=
    (sched i).eval (fun j => fmul (m (A + (i * n + j))) (m (x + j)))
  store m (y + i) (fadd (m (y + i)) result)

/-- The routine `void my_dgemv(int n, double* A, double* x, double* y)`, row `i` reducing
its products in the order `sched i`. -/
def my_dgemv (sched : ℤ → Reduction) (n A x y : ℤ) (m : Mem) : Mem :=
  forLoop n (my_dgemv_row sched n A x y) m

/-! ## The reference (`benchmark.cpp`) -/

/-- Modelled from the spec: `cblas_dgemv` is the external BLAS routine, not part of these
sources.  For `CblasRowMajor`, `CblasNoTrans` it is the operation
`y := alpha * A * x + beta * y` on an `M × N` row-major matrix with leading dimension
`lda` and vectors with strides `incx`, `incy`, the right-hand side read before the call.
How the routine rounds is not specified: the model stores the double nearest to the
mathematical result. -/
def cblas_dgemv (M N : ℤ) (alpha : Double) (A lda x incx : ℤ) (beta : Double)
    (y incy : ℤ) (m : Mem) : Mem :=
  forLoop M (fun i out =>
    store out (y + i * incy)
      (round64 (alpha * (∑ j in Finset.range N.toNat, m (A + (i * lda + j)) * m (x + j * incx))
        + beta * m (y + i * incy)))) m

/-- The routine `void reference_dgemv(int n, double* A, double* x, double *y)`. -/
def reference_dgemv (n A x y : ℤ) (m : Mem) : Mem :=
  let alpha : Double := lit 1.0
  let beta : Double := lit 1.0
  let lda : ℤ := n
  let incx : ℤ := 1
  let incy : ℤ := 1
  cblas_dgemv n n alpha A lda x incx beta y incy m

/-! ## The data generator -/

/-- The static engine `gen` seen through the distribution `dis`: the values that the
successive calls `dis(gen)` return. -/
abbrev Rng := ℕ → Double

/-- The streams that `std::uniform_real_distribution<> dis(-1.0, 1.0)` can produce: every
draw lies in `[-1, 1)`. -/
def validDraws (g : Rng) : Prop := ∀ k, -1 ≤ g k ∧ g k < 1

/-- The routine `void fill(double* p, int n)`, threading the engine state. -/
def fill (p n : ℤ) (s : Rng × Mem) : Rng × Mem :=
  forLoop n (fun i s =>
    (fun k => s.1 (k + 1), store s.2 (p + i) (fsub (fmul (ofInt 2) (s.1 0)) (ofInt 1)))) s

/-! ## The accuracy checker -/

/-- The loop of `check_accuracy` with `remaining` iterations still to run from index `i`. -/
def check_accuracy_loop (A Anot : ℤ) (eps : Double) (m : Mem) : ℕ → ℕ → Bool
  | 0, _ => true
  | remaining + 1, i =>
    if fabsf (fsub (m (A + i)) (m (Anot + i))) > eps then false
    else check_accuracy_loop A Anot eps m remaining (i + 1)

/-- The routine `bool check_accuracy(double *A, double *Anot, int nvalues)`: the index is a
`size_t`, so the bound `nvalues` is converted to `size_t` for the comparison. -/
def check_accuracy (A Anot nvalues : ℤ) (m : Mem) : Bool :=
  let eps : Double := lit 1e-5
  check_accuracy_loop A Anot eps m (wrapSize nvalues).toNat 0

/-! ## The metrics calculator -/

/-- The routine `void benchmarks(int n, double duration)`: the two values it prints, `mflops`
and `utilization_percentage`. -/
def benchmarks (n : ℤ) (duration : Double) : Double × Double :=
  let peak_bandwidth : Double := lit 204.8e9
  let mflops : Double :=
    fdiv (fdiv (fmul (fmul (lit 2.0) (ofInt n)) (ofInt n)) (lit 1e6)) duration
  let bytes : Double := ofInt (wrapSize (wrapSize n * 8))
  let bytes_in_gb : Double := fdiv bytes (lit 1e9)
  let achieved_bandwidth : Double := fdiv bytes_in_gb duration
  let utilization_percentage : Double :=
    fmul (fdiv achieved_bandwidth (fdiv peak_bandwidth (lit 1e9))) (ofInt 100)
  (mflops, utilization_percentage)

/-! ## The harness -/

/-- The library routine `memcpy(dst, src, bytes)` on buffers of doubles (8 bytes each). -/
def memcpy (dst src bytes : ℤ) (m : Mem) : Mem :=
  fun a => if dst ≤ a ∧ a < dst + bytes / 8 then m (src + (a - dst)) else m a

/-- The configured problem sizes. -/
def test_sizes : List ℤ := [1024, 1024, 2048, 4096, 8192, 16384]

/-- The declaration `int n_problems = test_sizes.size();`. -/
def n_problems : ℤ := wrapInt test_sizes.length

/-- The declaration `int max_size = test_sizes[n_problems-1];`. -/
def max_size : ℤ := test_sizes.getD (wrapInt (n_problems - 1)).toNat 0

/-- The number of elements of `buf`: `2 * max_size * max_size + 4 * max_size`, an `int`
expression converted to `size_t`. -/
def buf_size : ℤ :=
  wrapSize (wrapInt (wrapInt (wrapInt (2 * max_size) * max_size) + wrapInt (4 * max_size)))

namespace main

/-- The pointer `A = buf.data() + 0`; addresses are counted from `buf.data()`. -/
def A : ℤ := 0
/-- The pointer `Acopy = A + max_size * max_size`. -/
def Acopy : ℤ := A + wrapInt (max_size * max_size)
/-- The pointer `X = Acopy + max_size * max_size`. -/
def X : ℤ := Acopy + wrapInt (max_size * max_size)
/-- The pointer `Xcopy = X + max_size`. -/
def Xcopy : ℤ := X + max_size
/-- The pointer `Y = Xcopy + max_size`. -/
def Y : ℤ := Xcopy + max_size
/-- The pointer `Ycopy = Y + max_size`. -/
def Ycopy : ℤ := Y + max_size

end main

/-- The six views the iteration for size `n` uses, each as start address and length:
`A`, `Acopy`, `X`, `Xcopy`, `Y`, `Ycopy`. -/
def views (n : ℤ) : List (ℤ × ℤ) :=
  [(main.A, n * n), (main.Acopy, n * n), (main.X, n), (main.Xcopy, n), (main.Y, n),
    (main.Ycopy, n)]

/-- One line of standard output. -/
inductive Line
  | description
  | working (n : ℤ)
  | time (t : Double)
  | mflops (v : Double)
  | utilization (v : Double)
  | mismatch

/-- The state of the harness: memory, random engine, and the output so far. -/
structure State where
  mem : Mem
  gen : Rng
  out : List Line

/-- The three calls `fill(A, n * n); fill(X, n); fill(Y, n);`. -/
def generate (n : ℤ) (s : Rng × Mem) : Rng × Mem :=
  fill main.Y n (fill main.X n (fill main.A (wrapInt (n * n)) s))

/-- The three `memcpy` calls that snapshot `A`, `X`, `Y` into `Acopy`, `Xcopy`, `Ycopy`. -/
def snapshot (n : ℤ) (m : Mem) : Mem :=
  memcpy main.Ycopy main.Y (wrapSize (8 * wrapSize n))
    (memcpy main.Xcopy main.X (wrapSize (8 * wrapSize n))
      (memcpy main.Acopy main.A (wrapSize (wrapSize (8 * wrapSize n) * wrapSize n)) m))

/-- Memory at the moment `reference_dgemv` is invoked in the iteration for size `n`:
after generation, snapshot and the kernel call. -/
def before_reference (sched : ℤ → Reduction) (n : ℤ) (s : Rng × Mem) : Mem :=
  my_dgemv sched n main.A main.X main.Y (snapshot n (generate n s).2)

/-- The body of the loop `for (int n : test_sizes)`; `duration` is the measured time and
`sched` the reduction orders of the kernel call. -/
def iteration (sched : ℤ → Reduction) (n : ℤ) (duration : Double) (s : State) : State :=
  let g := generate n (s.gen, s.mem)
  let m := before_reference sched n (s.gen, s.mem)
  let b := benchmarks n duration
  let m := reference_dgemv n main.Acopy main.Xcopy main.Ycopy m
  { mem := m
    gen := g.1
    out := s.out ++ [Line.working n, Line.time duration, Line.mflops b.1, Line.utilization b.2]
      ++ (if check_accuracy main.Ycopy main.Y n m = false then [Line.mismatch] else []) }

/-- The loop over the problem sizes, the `k`-th iteration measuring `clock k` seconds and
reducing in the orders `sched k`. -/
def run_sizes (sched : ℕ → ℤ → Reduction) (clock : ℕ → Double) : List ℤ → ℕ → State → State
  | [], _, s => s
  | n :: rest, k, s =>
    run_sizes sched clock rest (k + 1) (iteration (sched k) n (clock k) s)

/-- The program `main`: final state and exit status. -/
def main (sched : ℕ → ℤ → Reduction) (clock : ℕ → Double) (s : State) : State × ℤ :=
  (run_sizes sched clock test_sizes 0 { s with out := s.out ++ [Line.description] }, 0)

/-! ## Concrete inputs -/

/-- Memory holding the given doubles from address 0 on, and 0 elsewhere. -/
def memOfList (l : List Double) : Mem := fun a => if 0 ≤ a then l.getD a.toNat 0 else 0

/-- Scenario `n = 2`: `A = [[1,2],[3,4]]` at 0, `X = [1,1]` at 4, `Y = [0,0]` at 6. -/
def scenario2 : Mem := memOfList [1, 2, 3, 4, 1, 1, 0, 0]

/-- Scenario `n = 4`: `A` the identity at 0, `X = [1,2,3,4]` at 16, `Y` zero at 20. -/
def scenario4 : Mem :=
  memOfList [1, 0, 0, 0, 0, 1, 0, 0, 0, 0, 1, 0, 0, 0, 0, 1, 1, 2, 3, 4, 0, 0, 0, 0]

/-- An input for `n = 2` on which an addition rounds: `A = [[2^60, 1], [0, 0]]` at 0,
`X = [1, 1]` at 4, `Y = [-2^60, 0]` at 6. -/
def roundingInput : Mem :=
  memOfList [1152921504606846976, 1, 0, 0, 1, 1, -1152921504606846976, 0]

/-- The reduction orders of a run in which every row reduces in loop order. -/
def loopOrder (n : ℤ) : ℤ → Reduction := fun _ => Reduction.sequential n.toNat

/-- A starting state of the harness: zeroed memory, an engine that always draws 0, and no
output yet. -/
def startState : State := { mem := fun _ => 0, gen := fun _ => 0, out := [] }

/-- Two one-element buffers: `A[0] = 87960931 * 2^-43` (about `1.0000000088e-5`, a double)
at address 0 and `Anot[0] = 0` at address 1. -/
def excessInput : Mem := memOfList [87960931 / 8796093022208, 0]

/-! ## Loops and stores -/

theorem forLoop_of_nonpos {σ : Type} (n : ℤ) (hn : n ≤ 0) (body : ℤ → σ → σ) (s : σ) :
    forLoop n body s = s := by
  simp [forLoop, Int.toNat_eq_zero.mpr hn]

theorem forLoop_toNat {σ : Type} (n : ℤ) (body : ℤ → σ → σ) (s : σ) :
    forLoop n body s = forLoop (n.toNat : ℤ) body s := by
  unfold forLoop
  rw [Int.toNat_ofNat]

theorem forLoop_succ {σ : Type} (k : ℕ) (body : ℤ → σ → σ) (s : σ) :
    forLoop ((k + 1 : ℕ) : ℤ) body s = body (k : ℤ) (forLoop (k : ℤ) body s) := by
  simp [forLoop, List.range_succ, List.foldl_append]

theorem forLoop_zero {σ : Type} (body : ℤ → σ → σ) (s : σ) :
    forLoop ((0 : ℕ) : ℤ) body s = s := by
  simp [forLoop]

theorem store_same (m : Mem) (a : ℤ) (v : Double) : store m a v a = v := by
  simp [store]

theorem store_other (m : Mem) (a b : ℤ) (v : Double) (h : b ≠ a) : store m a v b = m b := by
  simp [store, h]

/-! ## Rounding: general facts -/

theorem roundHalfEven_close (q : ℚ) :
    (roundHalfEven q : ℚ) - 1 / 2 ≤ q ∧ q ≤ (roundHalfEven q : ℚ) + 1 / 2 := by
  have h1 := Int.floor_le q
  have h2 := Int.lt_floor_add_one q
  unfold roundHalfEven
  split_ifs with a b c
  · constructor <;> linarith
  · push_cast; constructor <;> linarith
  · constructor <;> linarith
  · push_cast; constructor <;> linarith

theorem roundHalfEven_eq (q : ℚ) (k : ℤ) (h1 : (k : ℚ) - 1 / 2 < q) (h2 : q < (k : ℚ) + 1 / 2) :
    roundHalfEven q = k := by
  have hc := roundHalfEven_close q
  have hlt : ((roundHalfEven q : ℤ) : ℚ) < (k : ℚ) + 1 := by linarith [hc.1]
  have hgt : (k : ℚ) - 1 < ((roundHalfEven q : ℤ) : ℚ) := by linarith [hc.2]
  have hlt' : roundHalfEven q < k + 1 := by exact_mod_cast hlt
  have hgt' : k - 1 < roundHalfEven q := by exact_mod_cast hgt
  omega

theorem roundHalfEven_intCast (z : ℤ) : roundHalfEven (z : ℚ) = z :=
  roundHalfEven_eq _ z (by linarith) (by linarith)

theorem roundHalfEven_mono {q r : ℚ} (h : q ≤ r) : roundHalfEven q ≤ roundHalfEven r := by
  by_contra hlt
  push_neg at hlt
  have h1 : roundHalfEven r + 1 ≤ roundHalfEven q := hlt
  have h1' : ((roundHalfEven r : ℤ) : ℚ) + 1 ≤ ((roundHalfEven q : ℤ) : ℚ) := by exact_mod_cast h1
  have hq := roundHalfEven_close q
  have hr := roundHalfEven_close r
  have heq : q = r := by linarith [hq.1, hr.2]
  rw [heq] at hlt
  exact lt_irrefl _ hlt

theorem log2_eq (x : ℚ) (e : ℤ) (hx : 0 < x) (h1 : (2 : ℚ) ^ e ≤ x) (h2 : x < (2 : ℚ) ^ (e + 1)) :
    Int.log 2 x = e := by
  have a : e ≤ Int.log 2 x :=
    (Int.zpow_le_iff_le_log (by norm_num) hx).mp (by simpa using h1)
  have b : Int.log 2 x < e + 1 :=
    (Int.lt_zpow_iff_log_lt (by norm_num) hx).mp (by simpa using h2)
  omega

theorem two_zpow_log_le (x : ℚ) (hx : 0 < x) : (2 : ℚ) ^ Int.log 2 x ≤ x := by
  simpa using Int.zpow_log_le_self (b := 2) (by norm_num) hx

theorem lt_two_zpow_log_succ (x : ℚ) : x < (2 : ℚ) ^ (Int.log 2 x + 1) := by
  simpa using Int.lt_zpow_succ_log_self (b := 2) (by norm_num) x

theorem roundBinary_zero (p : ℕ) (emin : ℤ) : roundBinary p emin 0 = 0 := by
  simp [roundBinary]

theorem roundBinary_neg (p : ℕ) (emin : ℤ) (x : ℚ) :
    roundBinary p emin (-x) = -roundBinary p emin x := by
  unfold roundBinary
  rcases lt_trichotomy x 0 with h | h | h
  · have h1 : ¬ (-x = 0) := by intro h'; linarith [neg_eq_zero.mp h']
    have h2 : ¬ (x = 0) := ne_of_lt h
    have h3 : ¬ (-x < 0) := by linarith
    simp only [if_neg h1, if_neg h2, if_neg h3, if_pos h, abs_neg, neg_neg]
  · subst h; simp
  · have h1 : ¬ (-x = 0) := by intro h'; linarith [neg_eq_zero.mp h']
    have h2 : ¬ (x = 0) := ne_of_gt h
    have h3 : -x < 0 := by linarith
    have h4 : ¬ (x < 0) := by linarith
    simp only [if_neg h1, if_neg h2, if_pos h3, if_neg h4, abs_neg]

/-- On a positive argument: the significand is rounded at the unit in the last place. -/
theorem roundBinary_pos (p : ℕ) (emin : ℤ) (x : ℚ) (hx : 0 < x) :
    roundBinary p emin x =
      (roundHalfEven (x / 2 ^ (max (Int.log 2 x) emin - ((p : ℤ) - 1))) : ℚ) *
        2 ^ (max (Int.log 2 x) emin - ((p : ℤ) - 1)) := by
  unfold roundBinary
  rw [if_neg (ne_of_gt hx), abs_of_pos hx]
  simp only [if_neg (not_lt.mpr hx.le)]

theorem roundBinary_nonneg (p : ℕ) (emin : ℤ) (x : ℚ) (hx : 0 ≤ x) :
    0 ≤ roundBinary p emin x := by
  rcases eq_or_lt_of_le hx with h | h
  · rw [← h, roundBinary_zero]
  · rw [roundBinary_pos p emin x h]
    have hu : (0 : ℚ) < 2 ^ (max (Int.log 2 x) emin - ((p : ℤ) - 1)) := by positivity
    have h0 : roundHalfEven 0 ≤ roundHalfEven (x / 2 ^ (max (Int.log 2 x) emin - ((p : ℤ) - 1))) :=
      roundHalfEven_mono (by positivity)
    have h00 : roundHalfEven 0 = 0 := by
      have := roundHalfEven_intCast 0
      simpa using this
    rw [h00] at h0
    have : (0 : ℚ) ≤ (roundHalfEven (x / 2 ^ (max (Int.log 2 x) emin - ((p : ℤ) - 1))) : ℚ) := by
      exact_mod_cast h0
    positivity

theorem roundBinary_eval (p : ℕ) (emin : ℤ) (x : ℚ) (e k : ℤ) (hx : 0 < x)
    (hE : max (Int.log 2 x) emin = e)
    (h1 : (k : ℚ) - 1 / 2 < x / 2 ^ (e - ((p : ℤ) - 1)))
    (h2 : x / 2 ^ (e - ((p : ℤ) - 1)) < (k : ℚ) + 1 / 2) :
    roundBinary p emin x = (k : ℚ) * 2 ^ (e - ((p : ℤ) - 1)) := by
  rw [roundBinary_pos p emin x hx, hE, roundHalfEven_eq _ k h1 h2]

/-- A dyadic number with a significand of at most `p` bits and an exponent in range is
a floating-point number: rounding leaves it unchanged. -/
theorem roundBinary_dyadic (p : ℕ) (emin : ℤ) (z e : ℤ)
    (hz : |z| < 2 ^ p) (he : emin - ((p : ℤ) - 1) ≤ e) :
    roundBinary p emin ((z : ℚ) * 2 ^ e) = (z : ℚ) * 2 ^ e := by
  have key : ∀ w : ℤ, 0 < w → w < 2 ^ p →
      roundBinary p emin ((w : ℚ) * 2 ^ e) = (w : ℚ) * 2 ^ e := by
    intro w hw0 hw
    have hwq : (0 : ℚ) < (w : ℚ) := by exact_mod_cast hw0
    have hx : (0 : ℚ) < (w : ℚ) * 2 ^ e := by positivity
    have hlt : (w : ℚ) * 2 ^ e < (2 : ℚ) ^ (e + p) := by
      rw [zpow_add₀ (by norm_num : (2 : ℚ) ≠ 0), mul_comm]
      have : (w : ℚ) < (2 : ℚ) ^ (p : ℤ) := by
        rw [zpow_natCast]; exact_mod_cast hw
      exact mul_lt_mul_of_pos_left this (by positivity)
    have hL : Int.log 2 ((w : ℚ) * 2 ^ e) < e + p :=
      (Int.lt_zpow_iff_log_lt (by norm_num) hx).mp (by simpa using hlt)
    obtain ⟨d, hd⟩ : ∃ d : ℕ, (d : ℤ) =
        e - (max (Int.log 2 ((w : ℚ) * 2 ^ e)) emin - ((p : ℤ) - 1)) := by
      refine ⟨(e - (max (Int.log 2 ((w : ℚ) * 2 ^ e)) emin - ((p : ℤ) - 1))).toNat, ?_⟩
      rw [Int.toNat_of_nonneg]
      rcases max_cases (Int.log 2 ((w : ℚ) * 2 ^ e)) emin with h | h <;> omega
    have hquot : (w : ℚ) * 2 ^ e /
        2 ^ (max (Int.log 2 ((w : ℚ) * 2 ^ e)) emin - ((p : ℤ) - 1)) =
          ((w * 2 ^ d : ℤ) : ℚ) := by
      rw [mul_div_assoc, ← zpow_sub₀ (by norm_num : (2 : ℚ) ≠ 0), ← hd]
      push_cast
      rw [zpow_natCast]
    rw [roundBinary_pos p emin _ hx, hquot, roundHalfEven_intCast]
    push_cast
    rw [mul_assoc, ← zpow_natCast, hd, ← zpow_add₀ (by norm_num : (2 : ℚ) ≠ 0)]
    congr 2
    ring
  rcases lt_trichotomy z 0 with h | h | h
  · have := key (-z) (by omega) (by rw [abs_of_neg h] at hz; exact hz)
    have h2 : ((z : ℚ)) * 2 ^ e = -(((-z : ℤ) : ℚ) * 2 ^ e) := by push_cast; ring
    rw [h2, roundBinary_neg, this]
  · subst h; simp [roundBinary_zero]
  · exact key z h (by rw [abs_of_pos h] at hz; exact hz)

/-- Scaling by a power of two commutes with rounding in the normal range. -/
theorem roundBinary_scale (p : ℕ) (emin : ℤ) (a : ℕ) (x : ℚ) (hx : (2 : ℚ) ^ emin ≤ |x|) :
    roundBinary p emin (2 ^ a * x) = 2 ^ a * roundBinary p emin x := by
  have key : ∀ y : ℚ, (2 : ℚ) ^ emin ≤ y →
      roundBinary p emin (2 ^ a * y) = 2 ^ a * roundBinary p emin y := by
    intro y hy
    have hy0 : 0 < y := lt_of_lt_of_le (by positivity : (0 : ℚ) < 2 ^ emin) hy
    have hy2 : (0 : ℚ) < 2 ^ a * y := by positivity
    have hL : emin ≤ Int.log 2 y :=
      (Int.zpow_le_iff_le_log (by norm_num) hy0).mp (by simpa using hy)
    have hlog : Int.log 2 (2 ^ a * y) = Int.log 2 y + a := by
      have e1 : (2 : ℚ) ^ (Int.log 2 y + (a : ℤ)) = 2 ^ a * 2 ^ Int.log 2 y := by
        rw [zpow_add₀ (by norm_num : (2 : ℚ) ≠ 0), zpow_natCast, mul_comm]
      have e2 : (2 : ℚ) ^ (Int.log 2 y + (a : ℤ) + 1) = 2 ^ a * 2 ^ (Int.log 2 y + 1) := by
        rw [show Int.log 2 y + (a : ℤ) + 1 = (Int.log 2 y + 1) + (a : ℤ) by ring,
          zpow_add₀ (by norm_num : (2 : ℚ) ≠ 0), zpow_natCast, mul_comm]
      apply log2_eq _ _ hy2
      · rw [e1]
        exact mul_le_mul_of_nonneg_left (two_zpow_log_le y hy0) (by positivity)
      · rw [e2]
        exact mul_lt_mul_of_pos_left (lt_two_zpow_log_succ y) (by positivity : (0 : ℚ) < 2 ^ a)
    rw [roundBinary_pos p emin _ hy2, roundBinary_pos p emin _ hy0, hlog,
      max_eq_left hL, max_eq_left (by omega : emin ≤ Int.log 2 y + a)]
    have hu : (2 : ℚ) ^ (Int.log 2 y + (a : ℤ) - ((p : ℤ) - 1)) =
        2 ^ a * 2 ^ (Int.log 2 y - ((p : ℤ) - 1)) := by
      rw [show Int.log 2 y + (a : ℤ) - ((p : ℤ) - 1) = (a : ℤ) + (Int.log 2 y - ((p : ℤ) - 1))
        by ring, zpow_add₀ (by norm_num : (2 : ℚ) ≠ 0), zpow_natCast]
    rw [hu]
    have hq : 2 ^ a * y / (2 ^ a * 2 ^ (Int.log 2 y - ((p : ℤ) - 1))) =
        y / 2 ^ (Int.log 2 y - ((p : ℤ) - 1)) := by
      rw [mul_div_mul_left _ _ (by positivity : (2 : ℚ) ^ a ≠ 0)]
    rw [hq]
    ring
  rcases le_or_lt 0 x with h | h
  · rw [abs_of_nonneg h] at hx
    exact key x hx
  · rw [abs_of_neg h] at hx
    have := key (-x) hx
    rw [mul_neg, roundBinary_neg, roundBinary_neg] at this
    linarith

/-- A positive argument is rounded to at most the next power of two above it. -/
theorem roundBinary_le_pow (p : ℕ) (emin : ℤ) (hp : 1 ≤ p) (x : ℚ) (hx : 0 < x) :
    roundBinary p emin x ≤ 2 ^ (max (Int.log 2 x) emin + 1) := by
  obtain ⟨s, hs⟩ : ∃ s : ℕ, (s : ℤ) = (p : ℤ) - 1 := ⟨p - 1, by omega⟩
  rw [roundBinary_pos p emin x hx, ← hs]
  have hu : (0 : ℚ) < 2 ^ (max (Int.log 2 x) emin - (s : ℤ)) := by positivity
  have hxlt : x ≤ (2 : ℚ) ^ (max (Int.log 2 x) emin + 1) :=
    le_trans (lt_two_zpow_log_succ x).le
      (zpow_le_zpow_right₀ (by norm_num) (by have := le_max_left (Int.log 2 x) emin; omega))
  have hsplit : (2 : ℚ) ^ (max (Int.log 2 x) emin + 1) =
      ((2 ^ (s + 1) : ℤ) : ℚ) * 2 ^ (max (Int.log 2 x) emin - (s : ℤ)) := by
    push_cast
    rw [← zpow_natCast, ← zpow_add₀ (by norm_num : (2 : ℚ) ≠ 0)]
    congr 1
    push_cast
    ring
  have hq : x / 2 ^ (max (Int.log 2 x) emin - (s : ℤ)) ≤ ((2 ^ (s + 1) : ℤ) : ℚ) := by
    rw [div_le_iff₀ hu, ← hsplit]
    exact hxlt
  have hr := roundHalfEven_mono hq
  rw [roundHalfEven_intCast] at hr
  have hr' : (roundHalfEven (x / 2 ^ (max (Int.log 2 x) emin - (s : ℤ))) : ℚ) ≤
      ((2 ^ (s + 1) : ℤ) : ℚ) := by exact_mod_cast hr
  rw [hsplit]
  exact mul_le_mul_of_nonneg_right hr' hu.le

/-- A positive argument in the normal range is rounded to at least the power of two
below it. -/
theorem pow_le_roundBinary (p : ℕ) (emin : ℤ) (hp : 1 ≤ p) (x : ℚ) (hx : 0 < x)
    (hn : emin ≤ Int.log 2 x) :
    (2 : ℚ) ^ Int.log 2 x ≤ roundBinary p emin x := by
  obtain ⟨s, hs⟩ : ∃ s : ℕ, (s : ℤ) = (p : ℤ) - 1 := ⟨p - 1, by omega⟩
  rw [roundBinary_pos p emin x hx, ← hs, max_eq_left hn]
  have hu : (0 : ℚ) < 2 ^ (Int.log 2 x - (s : ℤ)) := by positivity
  have hsplit : (2 : ℚ) ^ Int.log 2 x =
      ((2 ^ s : ℤ) : ℚ) * 2 ^ (Int.log 2 x - (s : ℤ)) := by
    push_cast
    rw [← zpow_natCast, ← zpow_add₀ (by norm_num : (2 : ℚ) ≠ 0)]
    congr 1
    ring
  have hq : ((2 ^ s : ℤ) : ℚ) ≤ x / 2 ^ (Int.log 2 x - (s : ℤ)) := by
    rw [le_div_iff₀ hu, ← hsplit]
    exact two_zpow_log_le x hx
  have hr := roundHalfEven_mono hq
  rw [roundHalfEven_intCast] at hr
  have hr' : ((2 ^ s : ℤ) : ℚ) ≤
      (roundHalfEven (x / 2 ^ (Int.log 2 x - (s : ℤ))) : ℚ) := by exact_mod_cast hr
  rw [hsplit]
  exact mul_le_mul_of_nonneg_right hr' hu.le

theorem roundBinary_mono_pos (p : ℕ) (emin : ℤ) (hp : 1 ≤ p) (x y : ℚ) (hx : 0 < x)
    (h : x ≤ y) : roundBinary p emin x ≤ roundBinary p emin y := by
  have hy : 0 < y := lt_of_lt_of_le hx h
  have hL : Int.log 2 x ≤ Int.log 2 y := Int.log_mono_right hx h
  rcases eq_or_lt_of_le (max_le_max hL (le_refl emin)) with he | he
  · rw [roundBinary_pos p emin x hx, roundBinary_pos p emin y hy, he]
    have hu : (0 : ℚ) < 2 ^ (max (Int.log 2 y) emin - ((p : ℤ) - 1)) := by positivity
    have hq : x / 2 ^ (max (Int.log 2 y) emin - ((p : ℤ) - 1)) ≤
        y / 2 ^ (max (Int.log 2 y) emin - ((p : ℤ) - 1)) :=
      div_le_div_of_nonneg_right h hu.le
    have hr := roundHalfEven_mono hq
    have hr' : (roundHalfEven (x / 2 ^ (max (Int.log 2 y) emin - ((p : ℤ) - 1))) : ℚ) ≤
        (roundHalfEven (y / 2 ^ (max (Int.log 2 y) emin - ((p : ℤ) - 1))) : ℚ) := by
      exact_mod_cast hr
    exact mul_le_mul_of_nonneg_right hr' hu.le
  · have hn : emin ≤ Int.log 2 y := by
      rcases max_cases (Int.log 2 y) emin with c | c
      · exact c.2
      · have := le_max_right (Int.log 2 x) emin; omega
    have hE : max (Int.log 2 x) emin + 1 ≤ Int.log 2 y := by
      rw [max_eq_left hn] at he; omega
    calc roundBinary p emin x ≤ 2 ^ (max (Int.log 2 x) emin + 1) :=
          roundBinary_le_pow p emin hp x hx
      _ ≤ (2 : ℚ) ^ Int.log 2 y := zpow_le_zpow_right₀ (by norm_num) hE
      _ ≤ roundBinary p emin y := pow_le_roundBinary p emin hp y hy hn

/-- Rounding is monotone. -/
theorem roundBinary_mono (p : ℕ) (emin : ℤ) (hp : 1 ≤ p) {x y : ℚ} (h : x ≤ y) :
    roundBinary p emin x ≤ roundBinary p emin y := by
  rcases lt_or_le 0 x with hx | hx
  · exact roundBinary_mono_pos p emin hp x y hx h
  · rcases le_or_lt 0 y with hy | hy
    · have h1 : 0 ≤ roundBinary p emin (-x) := roundBinary_nonneg p emin _ (by linarith)
      rw [roundBinary_neg] at h1
      have h2 := roundBinary_nonneg p emin y hy
      linarith
    · have := roundBinary_mono_pos p emin hp (-y) (-x) (by linarith) (by linarith)
      rw [roundBinary_neg, roundBinary_neg] at this
      linarith


/-- The rounded significand of a positive argument has at most `p` bits, or is `2^p`. -/
theorem roundBinary_significand (p : ℕ) (emin : ℤ) (hp : 1 ≤ p) (x : ℚ) (hx : 0 < x) :
    0 ≤ roundHalfEven (x / 2 ^ (max (Int.log 2 x) emin - ((p : ℤ) - 1))) ∧
    roundHalfEven (x / 2 ^ (max (Int.log 2 x) emin - ((p : ℤ) - 1))) ≤ 2 ^ p := by
  obtain ⟨s, hs⟩ : ∃ s : ℕ, (s : ℤ) = (p : ℤ) - 1 := ⟨p - 1, by omega⟩
  have hps : p = s + 1 := by omega
  rw [← hs]
  have hu : (0 : ℚ) < 2 ^ (max (Int.log 2 x) emin - (s : ℤ)) := by positivity
  constructor
  · have h0 : roundHalfEven 0 ≤ roundHalfEven (x / 2 ^ (max (Int.log 2 x) emin - (s : ℤ))) :=
      roundHalfEven_mono (by positivity)
    have h00 : roundHalfEven 0 = 0 := by
      have := roundHalfEven_intCast 0
      simpa using this
    rwa [h00] at h0
  · have hxlt : x ≤ (2 : ℚ) ^ (max (Int.log 2 x) emin + 1) :=
      le_trans (lt_two_zpow_log_succ x).le
        (zpow_le_zpow_right₀ (by norm_num) (by have := le_max_left (Int.log 2 x) emin; omega))
    have hsplit : (2 : ℚ) ^ (max (Int.log 2 x) emin + 1) =
        ((2 ^ (s + 1) : ℤ) : ℚ) * 2 ^ (max (Int.log 2 x) emin - (s : ℤ)) := by
      push_cast
      rw [← zpow_natCast, ← zpow_add₀ (by norm_num : (2 : ℚ) ≠ 0)]
      congr 1
      push_cast
      ring
    have hq : x / 2 ^ (max (Int.log 2 x) emin - (s : ℤ)) ≤ ((2 ^ (s + 1) : ℤ) : ℚ) := by
      rw [div_le_iff₀ hu, ← hsplit]
      exact hxlt
    have hr := roundHalfEven_mono hq
    rw [roundHalfEven_intCast] at hr
    rw [hps]
    exact hr

/-- Rounding twice is rounding once: the result of a rounding is a floating-point number. -/
theorem roundBinary_idem (p : ℕ) (emin : ℤ) (hp : 1 ≤ p) (x : ℚ) :
    roundBinary p emin (roundBinary p emin x) = roundBinary p emin x := by
  have key : ∀ y : ℚ, 0 < y →
      roundBinary p emin (roundBinary p emin y) = roundBinary p emin y := by
    intro y hy
    obtain ⟨h0, hle⟩ := roundBinary_significand p emin hp y hy
    rw [roundBinary_pos p emin y hy]
    rcases eq_or_lt_of_le hle with heq | hlt
    · rw [heq]
      have e1 : (((2 : ℤ) ^ p : ℤ) : ℚ) * 2 ^ (max (Int.log 2 y) emin - ((p : ℤ) - 1)) =
          ((1 : ℤ) : ℚ) * 2 ^ (max (Int.log 2 y) emin + 1) := by
        push_cast
        rw [← zpow_natCast, ← zpow_add₀ (by norm_num : (2 : ℚ) ≠ 0), one_mul]
        congr 1
        ring
      rw [e1]
      apply roundBinary_dyadic
      · rw [abs_one]
        exact one_lt_pow₀ (by norm_num) (by omega)
      · have := le_max_right (Int.log 2 y) emin
        omega
    · apply roundBinary_dyadic
      · rw [abs_of_nonneg h0]; exact hlt
      · have := le_max_right (Int.log 2 y) emin
        omega
  rcases lt_trichotomy x 0 with h | h | h
  · have := key (-x) (by linarith)
    rw [roundBinary_neg, roundBinary_neg] at this
    linarith
  · subst h; simp [roundBinary_zero]
  · exact key x h

/-! ## Rounding to binary64 -/

theorem round64_zero : round64 0 = 0 := roundBinary_zero 53 (-1022)

theorem round64_neg (x : ℚ) : round64 (-x) = -round64 x := roundBinary_neg 53 (-1022) x

theorem round64_nonneg (x : ℚ) (hx : 0 ≤ x) : 0 ≤ round64 x :=
  roundBinary_nonneg 53 (-1022) x hx

theorem round64_mono {x y : ℚ} (h : x ≤ y) : round64 x ≤ round64 y :=
  roundBinary_mono 53 (-1022) (by norm_num) h

theorem round64_idem (x : ℚ) : round64 (round64 x) = round64 x :=
  roundBinary_idem 53 (-1022) (by norm_num) x

/-- A number `z * 2^e` with `|z| < 2^53` and `e ≥ -1074` is a double. -/
theorem round64_dyadic (z e : ℤ) (hz : |z| < 2 ^ 53) (he : -1074 ≤ e) :
    round64 ((z : ℚ) * 2 ^ e) = (z : ℚ) * 2 ^ e :=
  roundBinary_dyadic 53 (-1022) z e hz (by norm_num; omega)

/-- Integers up to `2^53` in magnitude are doubles. -/
theorem round64_int (z : ℤ) (hz : |z| ≤ 2 ^ 53) : round64 (z : ℚ) = (z : ℚ) := by
  rcases eq_or_lt_of_le hz with h | h
  · rcases abs_cases z with ⟨h1, _⟩ | ⟨h1, _⟩
    · have e : (z : ℚ) = ((1 : ℤ) : ℚ) * 2 ^ (53 : ℤ) := by
        rw [← h1, h]; norm_num
      rw [e]
      exact round64_dyadic 1 53 (by norm_num) (by norm_num)
    · have e : (z : ℚ) = ((-1 : ℤ) : ℚ) * 2 ^ (53 : ℤ) := by
        have : z = -2 ^ 53 := by omega
        rw [this]; norm_num
      rw [e]
      exact round64_dyadic (-1) 53 (by norm_num) (by norm_num)
  · have := round64_dyadic z 0 h (by norm_num)
    simpa using this

/-- Scaling by a power of two commutes with rounding when the argument is not below the
least normal number. -/
theorem round64_scale (a : ℕ) (x : ℚ) (hx : (2 : ℚ) ^ (-1022 : ℤ) ≤ |x|) :
    round64 (2 ^ a * x) = 2 ^ a * round64 x :=
  roundBinary_scale 53 (-1022) a x hx

/-- Evaluation of a rounding: `x` lies in the binade of exponent `e` (the least one when
`x` is subnormal) and within half a unit of `k` units in the last place. -/
theorem round64_eval (x : ℚ) (e k : ℤ) (hx : 0 < x) (hE : max (Int.log 2 x) (-1022) = e)
    (h1 : (k : ℚ) - 1 / 2 < x / 2 ^ (e - 52)) (h2 : x / 2 ^ (e - 52) < (k : ℚ) + 1 / 2) :
    round64 x = (k : ℚ) * 2 ^ (e - 52) := by
  have := roundBinary_eval 53 (-1022) x e k hx hE (by norm_num; exact h1) (by norm_num; exact h2)
  norm_num at this
  exact this

theorem isInteger_intCast (z : ℤ) : isInteger (z : ℚ) := by
  simp [isInteger]

/-! ## Reduction orders -/

namespace Reduction

/-- The order of the loop as written computes what the loop computes. -/
theorem sequential_eval (p : ℕ → Double) (k : ℕ) :
    (sequential k).eval p = forLoop (k : ℤ) (fun j result => fadd result (p j.toNat)) 0 := by
  induction k with
  | zero => simp [sequential, eval, forLoop]
  | succ k ih =>
    rw [forLoop_succ, ← ih]
    simp [sequential, eval]

theorem sequential_count (k j : ℕ) : (sequential k).count j = if j < k then 1 else 0 := by
  induction k with
  | zero => simp [sequential, count]
  | succ k ih =>
    simp only [sequential, count, ih]
    by_cases h1 : j < k
    · rw [if_pos h1, if_neg (by omega), if_pos (by omega)]
    · by_cases h2 : k = j
      · rw [if_neg h1, if_pos h2, if_pos (by omega)]
      · rw [if_neg h1, if_neg h2, if_neg (by omega)]

theorem sequential_covers (k : ℕ) : (sequential k).covers k :=
  fun j => sequential_count k j

/-- The value of a reduction depends only on the summands that enter it. -/
theorem eval_congr (r : Reduction) (p q : ℕ → Double)
    (h : ∀ j, 0 < r.count j → p j = q j) : r.eval p = r.eval q := by
  induction r with
  | zero => rfl
  | term k => exact h k (by simp [count])
  | plus l r ihl ihr =>
    simp only [eval]
    rw [ihl (fun j hj => h j (by simp only [count]; omega)),
      ihr (fun j hj => h j (by simp only [count]; omega))]

/-- A reduction of integer summands whose absolute values add up to at most `2^53` is
exact in every order. -/
theorem eval_exact (r : Reduction) (n : ℕ) (p : ℕ → Double) (z : ℕ → ℤ)
    (hp : ∀ j, j < n → p j = (z j : ℚ)) (hc : ∀ j, n ≤ j → r.count j = 0)
    (hb : ∑ j in Finset.range n, (r.count j : ℤ) * |z j| ≤ 2 ^ 53) :
    r.eval p = ((∑ j in Finset.range n, (r.count j : ℤ) * z j : ℤ) : ℚ) := by
  induction r with
  | zero => simp [eval, count]
  | term k =>
    have hk : k < n := by
      by_contra hk
      have := hc k (by omega)
      simp [count] at this
    simp only [eval, count]
    rw [hp k hk]
    congr 1
    rw [Finset.sum_eq_single_of_mem k (Finset.mem_range.mpr hk)]
    · simp
    · intro j _ hj
      rw [if_neg (by omega)]
      simp
  | plus l r ihl ihr =>
    have hsplit : ∀ f : ℕ → ℤ, ∑ j in Finset.range n, ((l.plus r).count j : ℤ) * f j =
        ∑ j in Finset.range n, (l.count j : ℤ) * f j +
          ∑ j in Finset.range n, (r.count j : ℤ) * f j := by
      intro f
      rw [← Finset.sum_add_distrib]
      apply Finset.sum_congr rfl
      intro j _
      simp only [count]
      push_cast
      ring
    have hnonneg : ∀ t : Reduction, 0 ≤ ∑ j in Finset.range n, (t.count j : ℤ) * |z j| :=
      fun t => Finset.sum_nonneg (fun j _ => mul_nonneg (Int.natCast_nonneg _) (abs_nonneg _))
    have habs : ∀ t : Reduction, |∑ j in Finset.range n, (t.count j : ℤ) * z j| ≤
        ∑ j in Finset.range n, (t.count j : ℤ) * |z j| := by
      intro t
      refine le_trans (Finset.abs_sum_le_sum_abs _ _) (le_of_eq ?_)
      apply Finset.sum_congr rfl
      intro j _
      rw [abs_mul, abs_of_nonneg (Int.natCast_nonneg _)]
    rw [hsplit] at hb
    have hl := ihl (fun j hj => by have := hc j hj; simp only [count] at this; omega)
      (by linarith [hnonneg r])
    have hr := ihr (fun j hj => by have := hc j hj; simp only [count] at this; omega)
      (by linarith [hnonneg l])
    simp only [eval]
    rw [hl, hr, hsplit, fadd]
    have hbound : |∑ j in Finset.range n, (l.count j : ℤ) * z j +
        ∑ j in Finset.range n, (r.count j : ℤ) * z j| ≤ 2 ^ 53 :=
      le_trans (abs_add _ _) (by linarith [habs l, habs r])
    have := round64_int _ hbound
    push_cast at this ⊢
    exact this

/-- Under a covering order the exact reduction is the sum over the iterations. -/
theorem eval_exact_covers (r : Reduction) (n : ℕ) (p : ℕ → Double) (z : ℕ → ℤ)
    (hr : r.covers n) (hp : ∀ j, j < n → p j = (z j : ℚ))
    (hb : ∑ j in Finset.range n, |z j| ≤ 2 ^ 53) :
    r.eval p = ((∑ j in Finset.range n, z j : ℤ) : ℚ) := by
  have hone : ∀ j ∈ Finset.range n, (r.count j : ℤ) = 1 := by
    intro j hj
    rw [hr j, if_pos (Finset.mem_range.mp hj)]
    rfl
  rw [eval_exact r n p z hp (fun j hj => by rw [hr j, if_neg (by omega)])]
  · congr 1
    apply Finset.sum_congr rfl
    intro j hj
    rw [hone j hj, one_mul]
  · refine le_trans (le_of_eq ?_) hb
    apply Finset.sum_congr rfl
    intro j hj
    rw [hone j hj, one_mul]

end Reduction

/-! ## The kernel: frame and result -/

theorem my_dgemv_row_eq (sched : ℤ → Reduction) (n A x y i : ℤ) (m : Mem) :
    my_dgemv_row sched n A x y i m =
      store m (y + i) (fadd (m (y + i))
        ((sched i).eval (fun j => fmul (m (A + (i * n + j))) (m (x + j))))) := rfl

/-- After the first `k` rows only `y[0..k-1]` can have changed. -/
theorem my_dgemv_rows_frame (sched : ℤ → Reduction) (n A x y : ℤ) (m : Mem) (k : ℕ) (a : ℤ)
    (ha : ¬ (y ≤ a ∧ a < y + k)) :
    forLoop (k : ℤ) (my_dgemv_row sched n A x y) m a = m a := by
  induction k with
  | zero => simp [forLoop]
  | succ k ih =>
    rw [forLoop_succ]
    have h1 : a ≠ y + (k : ℤ) := by
      intro h; apply ha; push_cast; constructor <;> omega
    have h2 : ¬ (y ≤ a ∧ a < y + (k : ℤ)) := by
      intro h; apply ha; push_cast; constructor <;> omega
    rw [my_dgemv_row_eq, store_other _ _ _ _ h1]
    exact ih h2

/-- Only `y[0..n-1]` can differ after `my_dgemv`. -/
theorem my_dgemv_outside (sched : ℤ → Reduction) (n A x y : ℤ) (m : Mem) (a : ℤ)
    (ha : ¬ (y ≤ a ∧ a < y + n)) :
    my_dgemv sched n A x y m a = m a := by
  unfold my_dgemv
  rw [forLoop_toNat]
  apply my_dgemv_rows_frame
  intro h; apply ha
  constructor
  · exact h.1
  · rcases le_or_lt n 0 with hn | hn
    · rw [Int.toNat_eq_zero.mpr hn] at h; omega
    · rw [Int.toNat_of_nonneg hn.le] at h; exact h.2

theorem index_in_matrix (n i j : ℤ) (h0 : 0 ≤ i) (hi : i < n) (hj0 : 0 ≤ j) (hj : j < n) :
    0 ≤ i * n + j ∧ i * n + j < n * n := by
  constructor
  · nlinarith
  · nlinarith

theorem wrapInt_of_range (z : ℤ) (h1 : -2147483648 ≤ z) (h2 : z < 2147483648) :
    wrapInt z = z := by
  unfold wrapInt; omega

/-- For `n ≤ 46340` the index `i * n + j`, evaluated in `int`, does not overflow. -/
theorem index_fits_int (n i j : ℤ) (hmax : n ≤ 46340) (h0 : 0 ≤ i) (hi : i < n)
    (hj0 : 0 ≤ j) (hj : j < n) : wrapInt (wrapInt (i * n) + j) = i * n + j := by
  have h1 : i * n ≤ 46339 * 46340 := by nlinarith
  have h2 : 0 ≤ i * n := by nlinarith
  rw [wrapInt_of_range (i * n) (by omega) (by omega)]
  exact wrapInt_of_range _ (by omega) (by omega)

/-- The value the kernel leaves in `y[i]`: the double sum of the old value and of the
reduction, in the order `sched i`, of the double products `A[i*n+j] * x[j]`. -/
theorem my_dgemv_value (sched : ℤ → Reduction) (n A x y : ℤ) (m : Mem)
    (hsched : ∀ i, (sched i).covers n.toNat)
    (hA : separate y n A (n * n)) (hx : separate y n x n)
    (i : ℤ) (h0 : 0 ≤ i) (hi : i < n) :
    my_dgemv sched n A x y m (y + i) =
      fadd (m (y + i))
        ((sched i).eval (fun j => fmul (m (A + (i * n + j))) (m (x + j)))) := by
  have hn : 0 ≤ n := by omega
  have hto : (n.toNat : ℤ) = n := Int.toNat_of_nonneg hn
  have key : ∀ k : ℕ, (k : ℤ) ≤ n → ∀ i : ℤ, 0 ≤ i → i < k →
      forLoop (k : ℤ) (my_dgemv_row sched n A x y) m (y + i) =
        fadd (m (y + i))
          ((sched i).eval (fun j => fmul (m (A + (i * n + j))) (m (x + j)))) := by
    intro k
    induction k with
    | zero => intro _ i h0 hi; simp at hi; omega
    | succ k ih =>
      intro hk i h0 hi
      have hk1 : (k : ℤ) < n := by push_cast at hk; omega
      rw [forLoop_succ, my_dgemv_row_eq]
      rcases eq_or_ne i (k : ℤ) with rfl | hne
      · rw [store_same, my_dgemv_rows_frame sched n A x y m k (y + (k : ℤ)) (by omega)]
        congr 1
        apply Reduction.eval_congr
        intro j hj
        have hjn : j < n.toNat := by
          by_contra hcon
          rw [hsched (k : ℤ) j, if_neg hcon] at hj
          exact lt_irrefl _ hj
        have hj1 : (j : ℤ) < n := by omega
        have hidx := index_in_matrix n k j h0 hk1 (Int.natCast_nonneg j) hj1
        rw [my_dgemv_rows_frame sched n A x y m k (A + ((k : ℤ) * n + (j : ℤ)))
            (by unfold separate at hA; omega),
          my_dgemv_rows_frame sched n A x y m k (x + (j : ℤ))
            (by unfold separate at hx; omega)]
      · rw [store_other _ _ _ _ (by omega)]
        apply ih (by omega) i h0
        push_cast at hi; omega
  unfold my_dgemv
  rw [forLoop_toNat]
  apply key n.toNat (by rw [hto]) i h0
  rw [hto]; exact hi

/-- On integer data whose magnitudes add up to at most `2^53` no operation of the kernel
rounds: `y[i]` ends as its old value plus the exact sum. -/
theorem my_dgemv_exact (sched : ℤ → Reduction) (n A x y : ℤ) (m : Mem)
    (hsched : ∀ i, (sched i).covers n.toNat)
    (hA : separate y n A (n * n)) (hx : separate y n x n)
    (i : ℤ) (h0 : 0 ≤ i) (hi : i < n)
    (hint : ∀ j : ℕ, j < n.toNat → isInteger (m (A + (i * n + j))) ∧ isInteger (m (x + j)))
    (hy : isInteger (m (y + i)))
    (hb : |m (y + i)| + ∑ j in Finset.range n.toNat, |m (A + (i * n + j)) * m (x + j)|
      ≤ 2 ^ 53) :
    my_dgemv sched n A x y m (y + i) =
      m (y + i) + ∑ j in Finset.range n.toNat, m (A + (i * n + j)) * m (x + j) := by
  have hsum0 : 0 ≤ ∑ j in Finset.range n.toNat, |m (A + (i * n + j)) * m (x + j)| :=
    Finset.sum_nonneg (fun j _ => abs_nonneg _)
  have hprod : ∀ j : ℕ, j < n.toNat →
      m (A + (i * n + j)) * m (x + j) =
        ((⌊m (A + (i * n + j))⌋ * ⌊m (x + j)⌋ : ℤ) : ℚ) := by
    intro j hj
    have h := hint j hj
    unfold isInteger at h
    push_cast
    rw [h.1, h.2]
  have hcast : ∑ j in Finset.range n.toNat, |m (A + (i * n + j)) * m (x + j)| =
      ((∑ j in Finset.range n.toNat, |⌊m (A + (i * n + j))⌋ * ⌊m (x + j)⌋| : ℤ) : ℚ) := by
    push_cast
    apply Finset.sum_congr rfl
    intro j hj
    rw [hprod j (Finset.mem_range.mp hj)]
    push_cast
    rfl
  have hbz : ∑ j in Finset.range n.toNat, |⌊m (A + (i * n + j))⌋ * ⌊m (x + j)⌋| ≤ 2 ^ 53 := by
    have h1 : ((∑ j in Finset.range n.toNat, |⌊m (A + (i * n + j))⌋ * ⌊m (x + j)⌋| : ℤ) : ℚ)
        ≤ 2 ^ 53 := by
      rw [← hcast]; linarith [abs_nonneg (m (y + i))]
    exact_mod_cast h1
  have hfmul : ∀ j : ℕ, j < n.toNat →
      fmul (m (A + (i * n + j))) (m (x + j)) =
        ((⌊m (A + (i * n + j))⌋ * ⌊m (x + j)⌋ : ℤ) : ℚ) := by
    intro j hj
    unfold fmul
    rw [hprod j hj]
    apply round64_int
    refine le_trans ?_ hbz
    exact Finset.single_le_sum (s := Finset.range n.toNat)
      (f := fun j : ℕ => |⌊m (A + (i * n + (j : ℤ)))⌋ * ⌊m (x + (j : ℤ))⌋|)
      (fun j _ => abs_nonneg _) (Finset.mem_range.mpr hj)
  rw [my_dgemv_value sched n A x y m hsched hA hx i h0 hi,
    Reduction.eval_exact_covers (sched i) n.toNat _ _ (hsched i) hfmul hbz]
  have hsumeq : ∑ j in Finset.range n.toNat, m (A + (i * n + j)) * m (x + j) =
      ((∑ j in Finset.range n.toNat, ⌊m (A + (i * n + j))⌋ * ⌊m (x + j)⌋ : ℤ) : ℚ) := by
    push_cast
    apply Finset.sum_congr rfl
    intro j hj
    rw [hprod j (Finset.mem_range.mp hj)]
    push_cast
    rfl
  rw [hsumeq]
  unfold isInteger at hy
  rw [← hy, fadd]
  have hfinal : |⌊m (y + i)⌋ +
      ∑ j in Finset.range n.toNat, ⌊m (A + (i * n + j))⌋ * ⌊m (x + j)⌋| ≤ 2 ^ 53 := by
    have h1 : (|⌊m (y + i)⌋| : ℤ) +
        ∑ j in Finset.range n.toNat, |⌊m (A + (i * n + j))⌋ * ⌊m (x + j)⌋| ≤ 2 ^ 53 := by
      have h2 : (((|⌊m (y + i)⌋| : ℤ) +
          ∑ j in Finset.range n.toNat, |⌊m (A + (i * n + j))⌋ * ⌊m (x + j)⌋| : ℤ) : ℚ)
            ≤ 2 ^ 53 := by
        push_cast
        rw [hy]
        rw [hcast] at hb
        push_cast at hb
        exact hb
      exact_mod_cast h2
    exact le_trans (abs_add _ _)
      (le_trans (add_le_add_left (Finset.abs_sum_le_sum_abs _ _) _) h1)
  have := round64_int _ hfinal
  push_cast at this ⊢
  exact this

/-! ## C1: what the kernel computes -/

/-- The sum `2^60 + 1` is not a double: it rounds to `2^60`. -/
theorem round64_big_plus_one : round64 1152921504606846977 = 1152921504606846976 := by
  have hlog : Int.log 2 (1152921504606846977 : ℚ) = 60 :=
    log2_eq _ 60 (by norm_num) (by norm_num) (by norm_num)
  have := round64_eval 1152921504606846977 60 4503599627370496 (by norm_num)
    (by rw [hlog]; norm_num) (by norm_num) (by norm_num)
  rw [this]
  norm_num

theorem round64_big : round64 1152921504606846976 = 1152921504606846976 := by
  have := round64_dyadic 1 60 (by norm_num) (by norm_num)
  norm_num at this
  exact this

theorem round64_one : round64 1 = 1 := by
  have := round64_int 1 (by norm_num)
  simpa using this

/-- Whatever the order, reducing the two products `2^60` and `1` gives `2^60`. -/
theorem rounding_eval (p : ℕ → Double) (h0 : p 0 = 1152921504606846976) (h1 : p 1 = 1)
    (r : Reduction) (hc : ∀ j, 2 ≤ j → r.count j = 0) (hc0 : r.count 0 ≤ 1)
    (hc1 : r.count 1 ≤ 1) :
    r.eval p =
      if r.count 0 = 1 then 1152921504606846976 else if r.count 1 = 1 then 1 else 0 := by
  induction r with
  | zero => simp [Reduction.eval, Reduction.count]
  | term k =>
    have hk : k < 2 := by
      by_contra hk
      have := hc k (by omega)
      simp [Reduction.count] at this
    interval_cases k
    · simp [Reduction.eval, Reduction.count, h0]
    · simp [Reduction.eval, Reduction.count, h1]
  | plus l r ihl ihr =>
    simp only [Reduction.count] at hc hc0 hc1
    have hl := ihl (fun j hj => by have := hc j hj; omega) (by omega) (by omega)
    have hr := ihr (fun j hj => by have := hc j hj; omega) (by omega) (by omega)
    simp only [Reduction.eval, Reduction.count]
    rw [hl, hr, fadd]
    have a0 : l.count 0 = 0 ∨ l.count 0 = 1 := by omega
    have b0 : r.count 0 = 0 ∨ r.count 0 = 1 := by omega
    have a1 : l.count 1 = 0 ∨ l.count 1 = 1 := by omega
    have b1 : r.count 1 = 0 ∨ r.count 1 = 1 := by omega
    rcases a0 with a0 | a0 <;> rcases b0 with b0 | b0 <;> rcases a1 with a1 | a1 <;>
      rcases b1 with b1 | b1 <;>
      first
        | omega
        | (simp only [a0, b0, a1, b1]
           norm_num [round64_zero, round64_big, round64_one, round64_big_plus_one])

theorem roundingInput_values :
    roundingInput 0 = 1152921504606846976 ∧ roundingInput 1 = 1 ∧ roundingInput 4 = 1 ∧
      roundingInput 5 = 1 ∧ roundingInput 6 = -1152921504606846976 := by
  simp [roundingInput, memOfList]

/-- C1 as stated fails, whatever order the reduction takes: for `n = 2`,
`A = [[2^60, 1], [0, 0]]`, `X = [1, 1]`, `Y = [-2^60, 0]`, all of them doubles in three
buffers, the sum `2^60 + 1` of the two products rounds to `2^60`, so `Y[0]` ends as `0`,
not as its old value plus the sum of `A[0*n+j] * X[j]`, which is `1`. -/
theorem my_dgemv_rounding_counterexample :
    separate 6 2 0 (2 * 2) ∧ separate 6 2 4 2 ∧
    (∀ a : ℤ, isDouble (roundingInput a)) ∧
    ¬ ∃ sched : ℤ → Reduction, (∀ i, (sched i).covers (2 : ℤ).toNat) ∧
      ∀ i : ℤ, 0 ≤ i → i < 2 →
        my_dgemv sched 2 0 4 6 roundingInput (6 + i) =
          roundingInput (6 + i) +
            ∑ j in Finset.range (2 : ℤ).toNat,
              roundingInput (0 + (i * 2 + j)) * roundingInput (4 + j) := by
  obtain ⟨v0, v1, v4, v5, v6⟩ := roundingInput_values
  refine ⟨by decide, by decide, ?_, ?_⟩
  · intro a
    unfold isDouble roundingInput memOfList
    split_ifs with h
    · have hcases : a.toNat = 0 ∨ a.toNat = 1 ∨ a.toNat = 2 ∨ a.toNat = 3 ∨ a.toNat = 4 ∨
          a.toNat = 5 ∨ a.toNat = 6 ∨ 7 ≤ a.toNat := by omega
      rcases hcases with c | c | c | c | c | c | c | c
      · rw [c]; exact round64_big
      · rw [c]; exact round64_one
      · rw [c]; exact round64_zero
      · rw [c]; exact round64_zero
      · rw [c]; exact round64_one
      · rw [c]; exact round64_one
      · rw [c]
        have := round64_neg 1152921504606846976
        rw [round64_big] at this
        simpa using this
      · have : [(1152921504606846976 : ℚ), 1, 0, 0, 1, 1, -1152921504606846976, 0].getD
            a.toNat 0 = 0 := by
          rcases Nat.eq_or_lt_of_le c with e | e
          · rw [← e]; rfl
          · rw [List.getD_eq_default]
            simp; omega
        rw [this]; exact round64_zero
    · exact round64_zero
  · rintro ⟨sched, hs, h⟩
    have hval := my_dgemv_value sched 2 0 4 6 roundingInput hs (by decide) (by decide) 0
      (by norm_num) (by norm_num)
    have hclaim := h 0 (by norm_num) (by norm_num)
    have hcov := hs 0
    have h2 : (2 : ℤ).toNat = 2 := by decide
    rw [h2] at hcov hclaim
    have hev := rounding_eval
      (fun j => fmul (roundingInput (0 + (0 * 2 + (j : ℤ)))) (roundingInput (4 + (j : ℤ))))
      (by norm_num [fmul, v0, v4, round64_big]) (by norm_num [fmul, v1, v5, round64_one])
      (sched 0) (fun j hj => by rw [hcov j, if_neg (by omega)])
      (by rw [hcov 0]; norm_num) (by rw [hcov 1]; norm_num)
    have c0 : (sched 0).count 0 = 1 := by rw [hcov 0]; norm_num
    rw [if_pos c0] at hev
    rw [hev] at hval
    rw [hval] at hclaim
    norm_num [Finset.sum_range_succ, v0, v1, v4, v5, v6, fadd, round64_zero] at hclaim

theorem memOfList_integer (l : List Double) (hl : ∀ q ∈ l, isInteger q) (a : ℤ) :
    isInteger (memOfList l a) := by
  unfold memOfList
  split_ifs with h
  · rcases lt_or_le a.toNat l.length with c | c
    · rw [List.getD_eq_getElem _ _ c]
      exact hl _ (List.getElem_mem c)
    · rw [List.getD_eq_default _ _ c]
      simp [isInteger]
  · simp [isInteger]

theorem scenario2_integer (a : ℤ) : isInteger (scenario2 a) := by
  apply memOfList_integer
  intro q hq
  simp only [List.mem_cons, List.mem_singleton, List.not_mem_nil, or_false] at hq
  rcases hq with rfl | rfl | rfl | rfl | rfl | rfl | rfl | rfl <;> simp [isInteger]

theorem scenario4_integer (a : ℤ) : isInteger (scenario4 a) := by
  apply memOfList_integer
  intro q hq
  have hq' : q = 0 ∨ q = 1 ∨ q = 2 ∨ q = 3 ∨ q = 4 := by
    simp only [List.mem_cons, List.mem_singleton, List.not_mem_nil, or_false] at hq
    tauto
  rcases hq' with rfl | rfl | rfl | rfl | rfl <;> simp [isInteger]

theorem loopOrder_covers (n i : ℤ) : (loopOrder n i).covers n.toNat :=
  Reduction.sequential_covers n.toNat

/-- C1 (amended): for every `n`, every row-major `n * n` matrix at `A` and every pair of
length-`n` vectors at `x` and `y` (buffers other than `y[0..n-1]`, as the claim takes them),
and whatever order the reduction combines the products in: after `my_dgemv(n, A, x, y)`
each `y[i]` with `0 ≤ i < n` holds the double sum of its old value and of the reduction of
the double products `A[i*n+j] * x[j]`; that is its old value plus the exact sum over
`j = 0..n-1` of `A[i*n+j] * x[j]` whenever these operands are integers with
`|y[i]| + Σ_j |A[i*n+j] * x[j]| ≤ 2^53`. -/
theorem my_dgemv_correct (sched : ℤ → Reduction) (n A x y : ℤ) (m : Mem)
    (hsched : ∀ i, (sched i).covers n.toNat)
    (hA : separate y n A (n * n)) (hx : separate y n x n) :
    ∀ i : ℤ, 0 ≤ i → i < n →
      my_dgemv sched n A x y m (y + i) =
        fadd (m (y + i))
          ((sched i).eval (fun j => fmul (m (A + (i * n + j))) (m (x + j)))) ∧
      ((∀ j : ℕ, j < n.toNat → isInteger (m (A + (i * n + j))) ∧ isInteger (m (x + j))) →
        isInteger (m (y + i)) →
        |m (y + i)| + ∑ j in Finset.range n.toNat, |m (A + (i * n + j)) * m (x + j)|
          ≤ 2 ^ 53 →
        my_dgemv sched n A x y m (y + i) =
          m (y + i) + ∑ j in Finset.range n.toNat, m (A + (i * n + j)) * m (x + j)) := by
  intro i h0 hi
  refine ⟨my_dgemv_value sched n A x y m hsched hA hx i h0 hi, ?_⟩
  intro hint hy hb
  exact my_dgemv_exact sched n A x y m hsched hA hx i h0 hi hint hy hb

/-- The scenario `n = 2`, `A = [[1,2],[3,4]]`, `X = [1,1]`, `Y = [0,0]` gives `Y = [3,7]`,
here with the reduction in loop order. -/
theorem my_dgemv_correct_witness :
    (∀ i, (loopOrder 2 i).covers (2 : ℤ).toNat) ∧
    separate 6 2 0 (2 * 2) ∧ separate 6 2 4 2 ∧
      my_dgemv (loopOrder 2) 2 0 4 6 scenario2 (6 + 0) = 3 ∧
      my_dgemv (loopOrder 2) 2 0 4 6 scenario2 (6 + 1) = 7 := by
  have h := my_dgemv_correct (loopOrder 2) 2 0 4 6 scenario2 (loopOrder_covers 2)
    (by decide) (by decide)
  have h2 : (2 : ℤ).toNat = 2 := by decide
  refine ⟨loopOrder_covers 2, by decide, by decide, ?_, ?_⟩
  · rw [(h 0 (by norm_num) (by norm_num)).2
      (fun j _ => ⟨scenario2_integer _, scenario2_integer _⟩) (scenario2_integer _)
      (by rw [h2]; simp [scenario2, memOfList, Finset.sum_range_succ]; norm_num)]
    rw [h2]
    simp [scenario2, memOfList, Finset.sum_range_succ]
    norm_num
  · rw [(h 1 (by norm_num) (by norm_num)).2
      (fun j _ => ⟨scenario2_integer _, scenario2_integer _⟩) (scenario2_integer _)
      (by rw [h2]; simp [scenario2, memOfList, Finset.sum_range_succ]; norm_num)]
    rw [h2]
    simp [scenario2, memOfList, Finset.sum_range_succ]
    norm_num

/-- The scenario `n = 2` gives `Y = [3,7]` in every reduction order. -/
theorem my_dgemv_scenario2 (sched : ℤ → Reduction)
    (hsched : ∀ i, (sched i).covers (2 : ℤ).toNat) :
    my_dgemv sched 2 0 4 6 scenario2 6 = 3 ∧ my_dgemv sched 2 0 4 6 scenario2 7 = 7 := by
  have h2 : (2 : ℤ).toNat = 2 := by decide
  have h := fun i h0 hi => my_dgemv_exact sched 2 0 4 6 scenario2 hsched (by decide)
    (by decide) i h0 hi (fun j _ => ⟨scenario2_integer _, scenario2_integer _⟩)
    (scenario2_integer _)
  have e0 := h 0 (by norm_num) (by norm_num)
    (by rw [h2]; simp [scenario2, memOfList, Finset.sum_range_succ]; norm_num)
  have e1 := h 1 (by norm_num) (by norm_num)
    (by rw [h2]; simp [scenario2, memOfList, Finset.sum_range_succ]; norm_num)
  rw [h2] at e0 e1
  norm_num at e0 e1
  rw [e0, e1]
  simp [scenario2, memOfList, Finset.sum_range_succ]
  norm_num

/-- The scenario `n = 4`, `A` the identity, `X = [1,2,3,4]`, `Y` zero gives `Y = [1,2,3,4]`
in every reduction order. -/
theorem my_dgemv_identity_scenario (sched : ℤ → Reduction)
    (hsched : ∀ i, (sched i).covers (4 : ℤ).toNat) :
    my_dgemv sched 4 0 16 20 scenario4 20 = 1 ∧ my_dgemv sched 4 0 16 20 scenario4 21 = 2 ∧
      my_dgemv sched 4 0 16 20 scenario4 22 = 3 ∧ my_dgemv sched 4 0 16 20 scenario4 23 = 4 := by
  have h4 : (4 : ℤ).toNat = 4 := by decide
  have h := fun i h0 hi => my_dgemv_exact sched 4 0 16 20 scenario4 hsched (by decide)
    (by decide) i h0 hi (fun j _ => ⟨scenario4_integer _, scenario4_integer _⟩)
    (scenario4_integer _)
  have e0 := h 0 (by norm_num) (by norm_num)
    (by rw [h4]; simp [scenario4, memOfList, Finset.sum_range_succ]; norm_num)
  have e1 := h 1 (by norm_num) (by norm_num)
    (by rw [h4]; simp [scenario4, memOfList, Finset.sum_range_succ]; norm_num)
  have e2 := h 2 (by norm_num) (by norm_num)
    (by rw [h4]; simp [scenario4, memOfList, Finset.sum_range_succ]; norm_num)
  have e3 := h 3 (by norm_num) (by norm_num)
    (by rw [h4]; simp [scenario4, memOfList, Finset.sum_range_succ]; norm_num)
  rw [h4] at e0 e1 e2 e3
  norm_num at e0 e1 e2 e3
  rw [e0, e1, e2, e3]
  simp [scenario4, memOfList, Finset.sum_range_succ]

/-! ## C2: the kernel writes `y[0..n-1]` only -/

/-- C2: `my_dgemv(n, A, x, y)` changes no cell other than `y[0..n-1]`, whatever the
reduction orders: every address outside that range keeps its value, in particular `y[k]`
for `k ≥ n`, every element of the matrix and every element of `x` when they lie apart from
`y[0..n-1]`; for `n ≤ 0` the whole memory is unchanged. -/
theorem my_dgemv_frame (sched : ℤ → Reduction) (n A x y : ℤ) (m : Mem) :
    (∀ a : ℤ, ¬ (y ≤ a ∧ a < y + n) → my_dgemv sched n A x y m a = m a) ∧
    (∀ k : ℤ, n ≤ k → my_dgemv sched n A x y m (y + k) = m (y + k)) ∧
    (separate y n A (n * n) →
      ∀ k : ℤ, 0 ≤ k → k < n * n → my_dgemv sched n A x y m (A + k) = m (A + k)) ∧
    (separate y n x n →
      ∀ k : ℤ, 0 ≤ k → k < n → my_dgemv sched n A x y m (x + k) = m (x + k)) ∧
    (n ≤ 0 → my_dgemv sched n A x y m = m) := by
  refine ⟨fun a ha => my_dgemv_outside sched n A x y m a ha, ?_, ?_, ?_, ?_⟩
  · intro k hk
    exact my_dgemv_outside sched n A x y m _ (by omega)
  · intro hA k h0 h1
    apply my_dgemv_outside
    unfold separate at hA
    omega
  · intro hx k h0 h1
    apply my_dgemv_outside
    unfold separate at hx
    omega
  · intro hn
    exact forLoop_of_nonpos n hn _ m

/-- On the scenario `n = 2` the matrix, the vector `x` and the cells behind `y[1]` are
untouched. -/
theorem my_dgemv_frame_witness :
    separate 6 2 0 (2 * 2) ∧ separate 6 2 4 2 ∧
    my_dgemv (loopOrder 2) 2 0 4 6 scenario2 (0 + 3) = 4 ∧
    my_dgemv (loopOrder 2) 2 0 4 6 scenario2 (4 + 1) = 1 ∧
    my_dgemv (loopOrder 2) 2 0 4 6 scenario2 (6 + 2) = 0 ∧
    my_dgemv (loopOrder 0) 0 0 4 6 scenario2 = scenario2 := by
  have h := my_dgemv_frame (loopOrder 2) 2 0 4 6 scenario2
  refine ⟨by decide, by decide, ?_, ?_, ?_, ?_⟩
  · rw [h.2.2.1 (by decide) 3 (by norm_num) (by norm_num)]
    simp [scenario2, memOfList]
  · rw [h.2.2.2.1 (by decide) 1 (by norm_num) (by norm_num)]
    simp [scenario2, memOfList]
  · rw [h.2.1 2 (by norm_num)]
    simp [scenario2, memOfList]
  · exact (my_dgemv_frame (loopOrder 0) 0 0 4 6 scenario2).2.2.2.2 (by norm_num)

/-! ## The accuracy checker -/

theorem toFloat_zero : toFloat 0 = 0 := roundBinary_zero 24 (-126)

/-- Rounding to `float` commutes with negation. -/
theorem toFloat_neg (x : Double) : toFloat (-x) = -toFloat x := roundBinary_neg 24 (-126) x

theorem fabsf_zero : fabsf 0 = 0 := by
  simp [fabsf, toFloat_zero]

theorem fsub_self (a : Double) : fsub a a = 0 := by
  rw [fsub, sub_self, round64_zero]

theorem fsub_antisymm (a b : Double) : fsub a b = -fsub b a := by
  rw [fsub, fsub, ← neg_sub b a, round64_neg]

theorem fabsf_fsub_comm (a b : Double) : fabsf (fsub a b) = fabsf (fsub b a) := by
  unfold fabsf
  rw [fsub_antisymm a b, toFloat_neg, abs_neg]

/-- The tolerance `eps`: the double nearest to `1e-5` is `5902958103587057 * 2^-69`. -/
theorem lit_eps : lit 1e-5 = 5902958103587057 / 590295810358705651712 := by
  have hlog : Int.log 2 (1e-5 : ℚ) = -17 :=
    log2_eq _ (-17) (by norm_num) (by norm_num) (by norm_num)
  have := round64_eval 1e-5 (-17) 5902958103587057 (by norm_num)
    (by rw [hlog]; norm_num) (by norm_num) (by norm_num)
  rw [lit, this]
  norm_num

/-- The loop of `check_accuracy` answers true exactly when no pair it visits is further
apart, after `fabsf`, than `eps`. -/
theorem check_accuracy_loop_iff (A Anot : ℤ) (eps : Double) (m : Mem) (remaining i : ℕ) :
    check_accuracy_loop A Anot eps m remaining i = true ↔
      ∀ k : ℕ, k < remaining →
        fabsf (fsub (m (A + ((i + k : ℕ) : ℤ))) (m (Anot + ((i + k : ℕ) : ℤ)))) ≤ eps := by
  induction remaining generalizing i with
  | zero => simp [check_accuracy_loop]
  | succ r ih =>
    unfold check_accuracy_loop
    by_cases h : fabsf (fsub (m (A + (i : ℤ))) (m (Anot + (i : ℤ)))) > eps
    · rw [if_pos h]
      constructor
      · intro hf; cases hf
      · intro hall
        have := hall 0 (Nat.succ_pos r)
        simp only [Nat.add_zero] at this
        exact absurd this (not_le.mpr h)
    · rw [if_neg h, ih]
      constructor
      · intro hall k hk
        rcases Nat.eq_zero_or_pos k with rfl | hpos
        · simpa using not_lt.mp h
        · have := hall (k - 1) (by omega)
          rwa [show i + 1 + (k - 1) = i + k by omega] at this
      · intro hall k hk
        have := hall (k + 1) (by omega)
        rwa [show i + (k + 1) = i + 1 + k by omega] at this

/-- What `check_accuracy` decides: every one of the first `nvalues` pairs is, after the
double subtraction and the conversion of the difference to `float`, at most `eps` apart. -/
theorem check_accuracy_iff (A Anot nvalues : ℤ) (m : Mem) :
    check_accuracy A Anot nvalues m = true ↔
      ∀ k : ℕ, k < (wrapSize nvalues).toNat →
        fabsf (fsub (m (A + (k : ℤ))) (m (Anot + (k : ℤ)))) ≤ lit 1e-5 := by
  unfold check_accuracy
  rw [check_accuracy_loop_iff]
  simp only [Nat.zero_add]

/-! ## C5: the checker is reflexive and symmetric -/

/-- C5: `check_accuracy(A, A, n)` is true for every buffer and count, and
`check_accuracy(A, B, n)` is true exactly when `check_accuracy(B, A, n)` is. -/
theorem check_accuracy_refl_symm (A B n : ℤ) (m : Mem) :
    check_accuracy A A n m = true ∧
    (check_accuracy A B n m = true ↔ check_accuracy B A n m = true) := by
  constructor
  · rw [check_accuracy_iff]
    intro k _
    rw [fsub_self, fabsf_zero]
    exact round64_nonneg _ (by norm_num)
  · rw [check_accuracy_iff, check_accuracy_iff]
    constructor
    · intro h k hk
      rw [fabsf_fsub_comm]
      exact h k hk
    · intro h k hk
      rw [fabsf_fsub_comm]
      exact h k hk

/-! ## C4: the tolerance test at the `float` boundary -/

/-- The double `87960931 * 2^-43` becomes the float `10995116 * 2^-40` (about
`9.99999975e-6`). -/
theorem toFloat_excess :
    toFloat (87960931 / 8796093022208) = 10995116 / 1099511627776 := by
  have hlog : Int.log 2 (87960931 / 8796093022208 : ℚ) = -17 :=
    log2_eq _ (-17) (by norm_num) (by norm_num) (by norm_num)
  have := roundBinary_eval 24 (-126) (87960931 / 8796093022208) (-17) 10995116 (by norm_num)
    (by rw [hlog]; norm_num) (by norm_num) (by norm_num)
  rw [toFloat, this]
  norm_num

/-- The number `87960931 * 2^-43` is a double. -/
theorem round64_excess : round64 (87960931 / 8796093022208) = 87960931 / 8796093022208 := by
  have := round64_dyadic 87960931 (-43) (by norm_num) (by norm_num)
  norm_num at this
  exact this

/-- C4 at the failing input: `A[0]` and `Anot[0]` are doubles whose difference is larger
than `1e-5` (and than the double `eps`) in absolute value, yet `check_accuracy(A, Anot, 1)`
returns true, because `fabsf` first rounds the difference to a `float` below `1e-5`. -/
theorem check_accuracy_accepts_excess :
    (1e-5 : ℚ) < |excessInput (0 + 0) - excessInput (1 + 0)| ∧
    lit 1e-5 < |excessInput (0 + 0) - excessInput (1 + 0)| ∧
    isDouble (excessInput (0 + 0)) ∧ isDouble (excessInput (1 + 0)) ∧
    check_accuracy 0 1 1 excessInput = true := by
  have h0 : excessInput (0 + 0) = 87960931 / 8796093022208 := by
    simp [excessInput, memOfList]
  have h1 : excessInput (1 + 0) = 0 := by
    simp [excessInput, memOfList]
  refine ⟨?_, ?_, ?_, ?_, ?_⟩
  · rw [h0, h1, sub_zero, abs_of_pos (by norm_num)]
    norm_num
  · rw [h0, h1, sub_zero, abs_of_pos (by norm_num), lit_eps]
    norm_num
  · rw [h0]; exact round64_excess
  · rw [h1]; exact round64_zero
  · rw [check_accuracy_iff]
    intro k hk
    have hk0 : k = 0 := by
      have : (wrapSize 1).toNat = 1 := by decide
      omega
    subst hk0
    simp only [Nat.cast_zero]
    rw [h0, h1, fsub, sub_zero, round64_excess, fabsf, toFloat_excess,
      abs_of_pos (by norm_num), lit_eps]
    norm_num

/-- A negative difference of large magnitude is rejected. -/
theorem check_accuracy_rejects_negative :
    check_accuracy 0 1 1 (memOfList [0, 1]) = false := by
  have hsub : fsub 0 1 = -1 := by
    have := round64_int (-1) (by norm_num)
    rw [fsub]
    norm_num at this ⊢
    exact this
  have hf : toFloat (-1) = -1 := by
    have := roundBinary_dyadic 24 (-126) (-1) 0 (by norm_num) (by norm_num)
    rw [toFloat]
    norm_num at this ⊢
    exact this
  have h1 : (wrapSize 1).toNat = 1 := by decide
  have hm0 : memOfList [0, 1] (0 + ((0 : ℕ) : ℤ)) = 0 := by simp [memOfList]
  have hm1 : memOfList [0, 1] (1 + ((0 : ℕ) : ℤ)) = 1 := by simp [memOfList]
  unfold check_accuracy
  rw [h1]
  unfold check_accuracy_loop
  rw [hm0, hm1, hsub, fabsf, hf, lit_eps, if_pos (by norm_num)]

/-! ## C6: the data generator -/

theorem ofInt_small (z : ℤ) (hz : |z| ≤ 2 ^ 53) : ofInt z = (z : ℚ) := round64_int z hz

/-- After the first `k` iterations of `fill`: the engine has advanced by `k` draws and
`p[0..k-1]` hold `2 * d - 1`, in doubles, for the successive draws `d`; no other cell has
changed. -/
theorem fill_rows (p : ℤ) (g : Rng) (m : Mem) (k : ℕ) :
    forLoop (k : ℤ)
      (fun i (s : Rng × Mem) =>
        (fun j => s.1 (j + 1), store s.2 (p + i) (fsub (fmul (ofInt 2) (s.1 0)) (ofInt 1))))
      (g, m) =
    (fun j => g (j + k),
      fun a => if p ≤ a ∧ a < p + k
        then fsub (fmul (ofInt 2) (g (a - p).toNat)) (ofInt 1) else m a) := by
  induction k with
  | zero =>
    rw [forLoop_zero]
    congr 1
    funext a
    rw [if_neg (by push_cast; omega)]
  | succ k ih =>
    rw [forLoop_succ, ih]
    simp only []
    congr 1
    · funext j
      congr 1
      omega
    · funext a
      rcases eq_or_ne a (p + (k : ℤ)) with rfl | hne
      · rw [store_same, if_pos (by push_cast; omega)]
        simp
      · rw [store_other _ _ _ _ hne]
        by_cases h : p ≤ a ∧ a < p + (k : ℤ)
        · rw [if_pos h, if_pos (by push_cast; omega)]
        · rw [if_neg h, if_neg (by push_cast; omega)]

/-- The cells `fill(p, n)` writes are exactly `p[0..n-1]`, and `p[i]` receives `2 * d - 1`,
in doubles, for the `i`-th draw `d`. -/
theorem fill_eq (p n : ℤ) (g : Rng) (m : Mem) (a : ℤ) :
    (fill p n (g, m)).2 a =
      if p ≤ a ∧ a < p + n
        then fsub (fmul (ofInt 2) (g (a - p).toNat)) (ofInt 1) else m a := by
  unfold fill
  rw [forLoop_toNat, fill_rows]
  simp only []
  rcases le_or_lt n 0 with hn | hn
  · rw [Int.toNat_eq_zero.mpr hn, if_neg (by push_cast; omega), if_neg (by omega)]
  · rw [Int.toNat_of_nonneg hn.le]

/-- Every value `fill` writes lies between `-3` and `1`. -/
theorem fill_range (p n : ℤ) (g : Rng) (m : Mem) (hg : validDraws g) (i : ℤ)
    (h0 : 0 ≤ i) (hi : i < n) :
    -3 ≤ (fill p n (g, m)).2 (p + i) ∧ (fill p n (g, m)).2 (p + i) ≤ 1 := by
  rw [fill_eq, if_pos (by omega)]
  have hd := hg (p + i - p).toNat
  have e2 : ofInt 2 = 2 := by simpa using ofInt_small 2 (by norm_num)
  have e1 : ofInt 1 = 1 := by simpa using ofInt_small 1 (by norm_num)
  have r2 : round64 2 = 2 := by simpa using round64_int 2 (by norm_num)
  have rm2 : round64 (-2) = -2 := by simpa using round64_int (-2) (by norm_num)
  have rm3 : round64 (-3) = -3 := by simpa using round64_int (-3) (by norm_num)
  rw [e2, e1]
  have hlo : -2 ≤ fmul 2 (g (p + i - p).toNat) :=
    le_trans (le_of_eq rm2.symm) (round64_mono (by linarith [hd.1]))
  have hhi : fmul 2 (g (p + i - p).toNat) ≤ 2 :=
    le_trans (round64_mono (by linarith [hd.2])) (le_of_eq r2)
  constructor
  · exact le_trans (le_of_eq rm3.symm) (round64_mono (by linarith))
  · exact le_trans (round64_mono (by linarith)) (le_of_eq round64_one)

/-- C6 at the failing input: with the admissible draw `-1/2`, `fill(p, 1)` stores `-2`,
which is not in `(-1, 1)`. -/
theorem fill_writes_outside_unit_interval :
    validDraws (fun _ => -1 / 2) ∧
    (fill 0 1 (fun _ => -1 / 2, fun _ => 0)).2 (0 + 0) = -2 ∧
    ¬ (-1 < (fill 0 1 (fun _ => -1 / 2, fun _ => 0)).2 (0 + 0)) := by
  have e2 : ofInt 2 = 2 := by simpa using ofInt_small 2 (by norm_num)
  have e1 : ofInt 1 = 1 := by simpa using ofInt_small 1 (by norm_num)
  have rm1 : round64 (-1) = -1 := by simpa using round64_int (-1) (by norm_num)
  have rm2 : round64 (-2) = -2 := by simpa using round64_int (-2) (by norm_num)
  have h : (fill 0 1 (fun _ => -1 / 2, fun _ => 0)).2 (0 + 0) = -2 := by
    rw [fill_eq, if_pos (by norm_num), e2, e1, fmul]
    norm_num
    rw [rm1, fsub]
    norm_num
    exact rm2
  refine ⟨?_, h, ?_⟩
  · intro k
    constructor <;> norm_num
  · rw [h]
    norm_num

/-! ## C7, C8: the metrics -/

theorem lit_two : lit 2.0 = 2 := by
  have := round64_int 2 (by norm_num)
  rw [lit]
  norm_num at this ⊢
  exact this

theorem lit_1e6 : lit 1e6 = 1000000 := by
  have := round64_int 1000000 (by norm_num)
  rw [lit]
  norm_num at this ⊢
  exact this

theorem lit_1e9 : lit 1e9 = 1000000000 := by
  have := round64_int 1000000000 (by norm_num)
  rw [lit]
  norm_num at this ⊢
  exact this

theorem lit_peak : lit 204.8e9 = 204800000000 := by
  have := round64_int 204800000000 (by norm_num)
  rw [lit]
  norm_num at this ⊢
  exact this

/-- The value `mflops` of `benchmarks`, operation by operation. -/
theorem benchmarks_mflops (n : ℤ) (t : Double) :
    (benchmarks n t).1 =
      round64 (round64 (round64 (round64 (2 * round64 n) * round64 n) / 1000000) / t) := by
  unfold benchmarks
  simp only [lit_two, lit_1e6, fdiv, fmul, ofInt]

theorem one_le_round64 (x : ℚ) (hx : 1 ≤ x) : 1 ≤ round64 x :=
  le_trans (le_of_eq round64_one.symm) (round64_mono hx)

/-- Doubling commutes with rounding from `1` on. -/
theorem round64_two_mul (x : ℚ) (hx : 1 ≤ x) : round64 (2 * x) = 2 * round64 x := by
  have h := round64_scale 1 x (by
    rw [abs_of_pos (by linarith)]
    refine le_trans ?_ hx
    exact zpow_le_one_of_nonpos₀ (by norm_num) (by norm_num))
  simpa using h

/-- C7: for a positive `int` size `n` and a positive time `t`, `benchmarks(n, t)` reports,
in doubles, `MFLOPS = (2 * n^2) / 1e6 / t` and the utilization
`((8 * n / 1e9) / t) / 204.8 * 100`. -/
theorem benchmarks_formulas (n : ℤ) (t : Double) (hn : 0 < n) (hint : n ≤ 2147483647)
    (_ht : 0 < t) :
    (benchmarks n t).1 =
      fdiv (fdiv (fmul (ofInt 2) (fmul (ofInt n) (ofInt n))) (lit 1e6)) t ∧
    (benchmarks n t).2 =
      fmul (fdiv (fdiv (fdiv (fmul (ofInt 8) (ofInt n)) (lit 1e9)) t) (lit 204.8))
        (ofInt 100) := by
  have h1 : wrapSize n = n := by
    unfold wrapSize
    exact Int.emod_eq_of_lt (by omega) (by omega)
  have h2 : wrapSize (n * 8) = n * 8 := by
    unfold wrapSize
    exact Int.emod_eq_of_lt (by omega) (by omega)
  have hN : ofInt n = (n : ℚ) := ofInt_small n (by rw [abs_of_pos hn]; omega)
  have e2 : ofInt 2 = 2 := by simpa using ofInt_small 2 (by norm_num)
  have e8 : ofInt 8 = 8 := by simpa using ofInt_small 8 (by norm_num)
  have hn1 : (1 : ℚ) ≤ (n : ℚ) := by exact_mod_cast hn
  have hnn : (1 : ℚ) ≤ (n : ℚ) * n := by nlinarith
  constructor
  · have hcode : fmul (fmul (lit 2.0) (ofInt n)) (ofInt n) = 2 * round64 ((n : ℚ) * n) := by
      have h2n : fmul (lit 2.0) (ofInt n) = 2 * (n : ℚ) := by
        rw [lit_two, hN, fmul]
        have := round64_int (2 * n) (by rw [abs_of_pos (by omega)]; omega)
        push_cast at this
        exact this
      rw [h2n, hN, fmul, mul_assoc, round64_two_mul _ hnn]
    have hspec : fmul (ofInt 2) (fmul (ofInt n) (ofInt n)) = 2 * round64 ((n : ℚ) * n) := by
      rw [e2, hN, fmul, fmul, round64_two_mul _ (one_le_round64 _ hnn), round64_idem]
    show fdiv (fdiv (fmul (fmul (lit 2.0) (ofInt n)) (ofInt n)) (lit 1e6)) t = _
    rw [hcode, hspec]
  · have hbytes : ofInt (wrapSize (wrapSize n * 8)) = fmul (ofInt 8) (ofInt n) := by
      rw [h1, h2, e8, hN, ofInt, fmul]
      push_cast
      rw [mul_comm]
    have hpeak : fdiv (lit 204.8e9) (lit 1e9) = lit 204.8 := by
      rw [lit_peak, lit_1e9, fdiv, lit]
      congr 1
      norm_num
    show fmul (fdiv (fdiv (fdiv (ofInt (wrapSize (wrapSize n * 8))) (lit 1e9)) t)
      (fdiv (lit 204.8e9) (lit 1e9))) (ofInt 100) = _
    rw [hbytes, hpeak]

/-- The formulas at `n = 1024` and a quarter of a second. -/
theorem benchmarks_formulas_witness :
    (0 : ℤ) < 1024 ∧ (1024 : ℤ) ≤ 2147483647 ∧ (0 : ℚ) < 1 / 4 ∧
    (benchmarks 1024 (1 / 4)).1 =
      fdiv (fdiv (fmul (ofInt 2) (fmul (ofInt 1024) (ofInt 1024))) (lit 1e6)) (1 / 4) ∧
    (benchmarks 1024 (1 / 4)).2 =
      fmul (fdiv (fdiv (fdiv (fmul (ofInt 8) (ofInt 1024)) (lit 1e9)) (1 / 4)) (lit 204.8))
        (ofInt 100) :=
  ⟨by norm_num, by norm_num, by norm_num,
    (benchmarks_formulas 1024 (1 / 4) (by norm_num) (by norm_num) (by norm_num)).1,
    (benchmarks_formulas 1024 (1 / 4) (by norm_num) (by norm_num) (by norm_num)).2⟩

/-- The double nearest to `2 / 10^6 = 1 / 500000` is `4722366482869645 * 2^-71`. -/
theorem round64_2em6 :
    round64 (1 / 500000) = 4722366482869645 / 2361183241434822606848 := by
  have hlog : Int.log 2 (1 / 500000 : ℚ) = -19 :=
    log2_eq _ (-19) (by norm_num) (by norm_num) (by norm_num)
  have := round64_eval (1 / 500000) (-19) 4722366482869645 (by norm_num)
    (by rw [hlog]; norm_num) (by norm_num) (by norm_num)
  rw [this]
  norm_num

/-- The double nearest to `8 / 10^6 = 1 / 125000` is `4722366482869645 * 2^-69`. -/
theorem round64_8em6 :
    round64 (1 / 125000) = 4722366482869645 / 590295810358705651712 := by
  have hlog : Int.log 2 (1 / 125000 : ℚ) = -17 :=
    log2_eq _ (-17) (by norm_num) (by norm_num) (by norm_num)
  have := round64_eval (1 / 125000) (-17) 4722366482869645 (by norm_num)
    (by rw [hlog]; norm_num) (by norm_num) (by norm_num)
  rw [this]
  norm_num

/-- The double nearest to `50 / 10^6 = 1 / 20000` is `7378697629483821 * 2^-67`. -/
theorem round64_50em6 :
    round64 (1 / 20000) = 7378697629483821 / 147573952589676412928 := by
  have hlog : Int.log 2 (1 / 20000 : ℚ) = -15 :=
    log2_eq _ (-15) (by norm_num) (by norm_num) (by norm_num)
  have := round64_eval (1 / 20000) (-15) 7378697629483821 (by norm_num)
    (by rw [hlog]; norm_num) (by norm_num) (by norm_num)
  rw [this]
  norm_num

theorem round64_small_int (z : ℤ) (hz : |z| ≤ 100) : round64 (z : ℚ) = (z : ℚ) :=
  round64_int z (le_trans hz (by norm_num))

/-- The value of `mflops` for `n = 1`, `t = 1`. -/
theorem mflops_1_1 : (benchmarks 1 1).1 = 4722366482869645 / 2361183241434822606848 := by
  have r1 : round64 1 = 1 := round64_one
  have r2 : round64 2 = 2 := by simpa using round64_small_int 2 (by norm_num)
  rw [benchmarks_mflops]
  norm_num [r1, r2]
  rw [round64_idem, round64_2em6]

/-- The value of `mflops` for `n = 5`, `t = 1`. -/
theorem mflops_5_1 : (benchmarks 5 1).1 = 7378697629483821 / 147573952589676412928 := by
  have r5 : round64 5 = 5 := by simpa using round64_small_int 5 (by norm_num)
  have r10 : round64 10 = 10 := by simpa using round64_small_int 10 (by norm_num)
  have r50 : round64 50 = 50 := by simpa using round64_small_int 50 (by norm_num)
  rw [benchmarks_mflops]
  norm_num [r5, r10, r50]
  rw [round64_idem, round64_50em6]

theorem mflops_one (t : Double) : (benchmarks 1 t).1 = round64 (round64 (1 / 500000) / t) := by
  have r1 : round64 1 = 1 := round64_one
  have r2 : round64 2 = 2 := by simpa using round64_small_int 2 (by norm_num)
  rw [benchmarks_mflops]
  norm_num [r1, r2]

theorem mflops_two (t : Double) : (benchmarks 2 t).1 = round64 (round64 (1 / 125000) / t) := by
  have r2 : round64 2 = 2 := by simpa using round64_small_int 2 (by norm_num)
  have r4 : round64 4 = 4 := by simpa using round64_small_int 4 (by norm_num)
  have r8 : round64 8 = 8 := by simpa using round64_small_int 8 (by norm_num)
  rw [benchmarks_mflops]
  norm_num [r2, r4, r8]

/-- The value of `mflops` for `n = 1` and `t = 2^1023`, a subnormal number. -/
theorem mflops_1_huge : (benchmarks 1 (2 ^ 1023)).1 = 4503599627 * 2 ^ (-1074 : ℤ) := by
  rw [mflops_one, round64_2em6]
  have hx : (4722366482869645 / 2361183241434822606848 / 2 ^ 1023 : ℚ) =
      4722366482869645 * 2 ^ (-1094 : ℤ) := by
    rw [zpow_neg, show (1094 : ℤ) = ((1094 : ℕ) : ℤ) by norm_num, zpow_natCast]
    norm_num
  rw [hx]
  have hpos : (0 : ℚ) < 4722366482869645 * 2 ^ (-1094 : ℤ) := by positivity
  have hlog : Int.log 2 (4722366482869645 * 2 ^ (-1094 : ℤ) : ℚ) = -1042 := by
    apply log2_eq _ _ hpos
    · rw [show (-1042 : ℤ) = 52 + -1094 by norm_num, zpow_add₀ (by norm_num : (2 : ℚ) ≠ 0)]
      exact mul_le_mul_of_nonneg_right (by norm_num) (by positivity)
    · rw [show (-1042 + 1 : ℤ) = 53 + -1094 by norm_num, zpow_add₀ (by norm_num : (2 : ℚ) ≠ 0)]
      exact mul_lt_mul_of_pos_right (by norm_num) (by positivity)
  have hq : (4722366482869645 * 2 ^ (-1094 : ℤ) : ℚ) / 2 ^ (-1022 - 52 : ℤ) =
      4722366482869645 / 1048576 := by
    rw [mul_div_assoc, ← zpow_sub₀ (by norm_num : (2 : ℚ) ≠ 0)]
    norm_num
  have := round64_eval (4722366482869645 * 2 ^ (-1094 : ℤ)) (-1022) 4503599627 hpos
    (by rw [hlog]; norm_num) (by rw [hq]; norm_num) (by rw [hq]; norm_num)
  rw [this]
  norm_num

/-- The value of `mflops` for `n = 2` and `t = 2^1023`, a subnormal number. -/
theorem mflops_2_huge : (benchmarks 2 (2 ^ 1023)).1 = 18014398509 * 2 ^ (-1074 : ℤ) := by
  rw [mflops_two, round64_8em6]
  have hx : (4722366482869645 / 590295810358705651712 / 2 ^ 1023 : ℚ) =
      4722366482869645 * 2 ^ (-1092 : ℤ) := by
    rw [zpow_neg, show (1092 : ℤ) = ((1092 : ℕ) : ℤ) by norm_num, zpow_natCast]
    norm_num
  rw [hx]
  have hpos : (0 : ℚ) < 4722366482869645 * 2 ^ (-1092 : ℤ) := by positivity
  have hlog : Int.log 2 (4722366482869645 * 2 ^ (-1092 : ℤ) : ℚ) = -1040 := by
    apply log2_eq _ _ hpos
    · rw [show (-1040 : ℤ) = 52 + -1092 by norm_num, zpow_add₀ (by norm_num : (2 : ℚ) ≠ 0)]
      exact mul_le_mul_of_nonneg_right (by norm_num) (by positivity)
    · rw [show (-1040 + 1 : ℤ) = 53 + -1092 by norm_num, zpow_add₀ (by norm_num : (2 : ℚ) ≠ 0)]
      exact mul_lt_mul_of_pos_right (by norm_num) (by positivity)
  have hq : (4722366482869645 * 2 ^ (-1092 : ℤ) : ℚ) / 2 ^ (-1022 - 52 : ℤ) =
      4722366482869645 / 262144 := by
    rw [mul_div_assoc, ← zpow_sub₀ (by norm_num : (2 : ℚ) ≠ 0)]
    norm_num
  have := round64_eval (4722366482869645 * 2 ^ (-1092 : ℤ)) (-1022) 18014398509 hpos
    (by rw [hlog]; norm_num) (by rw [hq]; norm_num) (by rw [hq]; norm_num)
  rw [this]
  norm_num

/-- C8 as stated fails in its scaling equation: `MFLOPS(5*1, 1)` is the double nearest to
`5e-5`, which is not `5^2` times `MFLOPS(1, 1)`, the double nearest to `2e-6`, nor the double
product of the two; and for the elapsed time `2^1023`, where the results are subnormal,
`MFLOPS(2*1, t)` is not `2^2 * MFLOPS(1, t)` either. -/
theorem mflops_scaling_counterexample :
    ((0 : ℚ) < 1 ∧ isDouble 1 ∧
      (benchmarks (5 * 1) 1).1 ≠ (5 : ℚ) ^ 2 * (benchmarks 1 1).1 ∧
      (benchmarks (5 * 1) 1).1 ≠ fmul (fmul (ofInt 5) (ofInt 5)) (benchmarks 1 1).1) ∧
    ((0 : ℚ) < 2 ^ 1023 ∧ isDouble (2 ^ 1023) ∧
      (benchmarks (2 * 1) (2 ^ 1023)).1 ≠ (2 : ℚ) ^ 2 * (benchmarks 1 (2 ^ 1023)).1) := by
  have e5 : ofInt 5 = 5 := by simpa using ofInt_small 5 (by norm_num)
  have r25 : round64 25 = 25 := by simpa using round64_small_int 25 (by norm_num)
  refine ⟨⟨by norm_num, round64_one, ?_, ?_⟩, by positivity, ?_, ?_⟩
  · rw [show (5 * 1 : ℤ) = 5 by norm_num, mflops_5_1, mflops_1_1]
    norm_num
  · rw [show (5 * 1 : ℤ) = 5 by norm_num, mflops_5_1, mflops_1_1, e5, fmul, fmul]
    norm_num [r25]
    have hlog : Int.log 2 (118059162071741125 / 2361183241434822606848 : ℚ) = -15 :=
      log2_eq _ (-15) (by norm_num) (by norm_num) (by norm_num)
    have := round64_eval (118059162071741125 / 2361183241434822606848) (-15)
      7378697629483820 (by norm_num) (by rw [hlog]; norm_num) (by norm_num) (by norm_num)
    rw [this]
    norm_num
  · have := round64_dyadic 1 1023 (by norm_num) (by norm_num)
    unfold isDouble
    rw [Int.cast_one, one_mul] at this
    rw [← zpow_natCast (2 : ℚ) 1023]
    simp only [Nat.cast_ofNat]
    exact this
  · rw [show (2 * 1 : ℤ) = 2 by norm_num, mflops_2_huge, mflops_1_huge]
    intro h
    have hpos : (0 : ℚ) < 2 ^ (-1074 : ℤ) := by positivity
    have h2 : (18014398509 : ℚ) = 2 ^ 2 * 4503599627 := by
      have := mul_right_cancel₀ (ne_of_gt hpos)
        (show (18014398509 : ℚ) * 2 ^ (-1074 : ℤ) = (2 ^ 2 * 4503599627) * 2 ^ (-1074 : ℤ) by
          rw [h]; ring)
      exact this
    norm_num at h2

/-- Scaling by a power of two commutes with rounding from `2^-1022` on. -/
theorem round64_pow_mul (a : ℕ) (x : ℚ) (hx : (2 : ℚ) ^ (-1022 : ℤ) ≤ x) :
    round64 (2 ^ a * x) = 2 ^ a * round64 x :=
  round64_scale a x (le_trans hx (le_abs_self x))

theorem round64_two : round64 2 = 2 := by
  simpa using round64_small_int 2 (by norm_num)

theorem quarter_le_huge : (1 / 4 : ℚ) ≤ 2 ^ (1000 : ℤ) :=
  le_trans (by norm_num : (1 / 4 : ℚ) ≤ 1) (one_le_zpow₀ (by norm_num) (by norm_num))

/-- The double `2^-20`. -/
theorem round64_2em20 : round64 (2 ^ (-20 : ℤ)) = 2 ^ (-20 : ℤ) := by
  have := round64_dyadic 1 (-20) (by norm_num) (by norm_num)
  rw [Int.cast_one, one_mul] at this
  exact this

/-- The scaling of `mflops` by the square of a power of two, for a size `n ≥ 1`. -/
theorem mflops_scale_pos (a : ℕ) (n : ℤ) (t : Double) (hn : 1 ≤ n) (ht : 0 < t)
    (hmax : t ≤ 2 ^ (1000 : ℤ)) :
    (benchmarks (2 ^ a * n) t).1 = ((2 : ℚ) ^ a) ^ 2 * (benchmarks n t).1 := by
  have hsmall : (2 : ℚ) ^ (-1022 : ℤ) ≤ 2 ^ (-1020 : ℤ) :=
    zpow_le_zpow_right₀ (by norm_num) (by norm_num)
  have hsmall1 : (2 : ℚ) ^ (-1020 : ℤ) ≤ 1 := zpow_le_one_of_nonpos₀ (by norm_num) (by norm_num)
  have hnq : (1 : ℚ) ≤ (n : ℚ) := by exact_mod_cast hn
  have hN : 1 ≤ round64 (n : ℚ) := one_le_round64 _ hnq
  have hP1 : 2 ≤ round64 (2 * round64 (n : ℚ)) :=
    le_trans (le_of_eq round64_two.symm) (round64_mono (by linarith))
  have hP2 : 2 ≤ round64 (round64 (2 * round64 (n : ℚ)) * round64 (n : ℚ)) :=
    le_trans (le_of_eq round64_two.symm) (round64_mono (by nlinarith))
  have hdiv : (2 : ℚ) ^ (-20 : ℤ) ≤
      round64 (round64 (2 * round64 (n : ℚ)) * round64 (n : ℚ)) / 1000000 := by
    rw [le_div_iff₀ (by norm_num)]
    refine le_trans ?_ hP2
    norm_num
  have hQ : (2 : ℚ) ^ (-20 : ℤ) ≤
      round64 (round64 (round64 (2 * round64 (n : ℚ)) * round64 (n : ℚ)) / 1000000) :=
    le_trans (le_of_eq round64_2em20.symm) (round64_mono hdiv)
  have hF : (2 : ℚ) ^ (-1020 : ℤ) ≤
      round64 (round64 (round64 (2 * round64 (n : ℚ)) * round64 (n : ℚ)) / 1000000) / t := by
    rw [le_div_iff₀ ht]
    calc (2 : ℚ) ^ (-1020 : ℤ) * t ≤ 2 ^ (-1020 : ℤ) * 2 ^ (1000 : ℤ) :=
          mul_le_mul_of_nonneg_left hmax (zpow_nonneg (by norm_num : (0 : ℚ) ≤ 2) (-1020))
      _ = 2 ^ (-20 : ℤ) := by
          rw [← zpow_add₀ (by norm_num : (2 : ℚ) ≠ 0)]
          norm_num
      _ ≤ _ := hQ
  rw [benchmarks_mflops, benchmarks_mflops]
  have s1 : round64 (((2 ^ a * n : ℤ) : ℚ)) = 2 ^ a * round64 (n : ℚ) := by
    push_cast
    exact round64_pow_mul a _ (by linarith)
  have s2 : round64 (2 * (2 ^ a * round64 (n : ℚ))) =
      2 ^ a * round64 (2 * round64 (n : ℚ)) := by
    rw [show 2 * (2 ^ a * round64 (n : ℚ)) = 2 ^ a * (2 * round64 (n : ℚ)) by ring]
    exact round64_pow_mul a _ (by linarith)
  have s3 : round64 (2 ^ a * round64 (2 * round64 (n : ℚ)) * (2 ^ a * round64 (n : ℚ))) =
      2 ^ (a + a) * round64 (round64 (2 * round64 (n : ℚ)) * round64 (n : ℚ)) := by
    rw [show 2 ^ a * round64 (2 * round64 (n : ℚ)) * (2 ^ a * round64 (n : ℚ)) =
      2 ^ (a + a) * (round64 (2 * round64 (n : ℚ)) * round64 (n : ℚ)) by ring]
    exact round64_pow_mul (a + a) _ (by nlinarith)
  have s4 : round64 (2 ^ (a + a) *
      round64 (round64 (2 * round64 (n : ℚ)) * round64 (n : ℚ)) / 1000000) =
      2 ^ (a + a) *
        round64 (round64 (round64 (2 * round64 (n : ℚ)) * round64 (n : ℚ)) / 1000000) := by
    rw [mul_div_assoc]
    exact round64_pow_mul (a + a) _ (by linarith)
  have s5 : round64 (2 ^ (a + a) *
      round64 (round64 (round64 (2 * round64 (n : ℚ)) * round64 (n : ℚ)) / 1000000) / t) =
      2 ^ (a + a) * round64
        (round64 (round64 (round64 (2 * round64 (n : ℚ)) * round64 (n : ℚ)) / 1000000) / t) := by
    rw [mul_div_assoc]
    exact round64_pow_mul (a + a) _ (by linarith)
  rw [s1, s2, s3, s4, s5]
  ring

/-- C8 (amended): the MFLOPS value that `benchmarks` computes does not increase when the
elapsed time grows at a fixed size `n ≥ 0`, does not decrease when the size grows at a
fixed time `t > 0`, and `MFLOPS(k*n, t) = k^2 * MFLOPS(n, t)` when `k` is a power of two and
`t` is at most `2^1000` (so that no result is subnormal). -/
theorem mflops_monotone :
    (∀ (n : ℤ) (t1 t2 : Double), 0 ≤ n → 0 < t1 → t1 ≤ t2 →
      (benchmarks n t2).1 ≤ (benchmarks n t1).1) ∧
    (∀ (n1 n2 : ℤ) (t : Double), 0 < t → 0 ≤ n1 → n1 ≤ n2 →
      (benchmarks n1 t).1 ≤ (benchmarks n2 t).1) ∧
    (∀ (a : ℕ) (n : ℤ) (t : Double), 0 ≤ n → 0 < t → t ≤ 2 ^ (1000 : ℤ) →
      (benchmarks (2 ^ a * n) t).1 = ((2 : ℚ) ^ a) ^ 2 * (benchmarks n t).1) := by
  refine ⟨?_, ?_, ?_⟩
  · intro n t1 t2 hn h1 h12
    rw [benchmarks_mflops, benchmarks_mflops]
    have hn' : (0 : ℚ) ≤ (n : ℚ) := by exact_mod_cast hn
    have hN : 0 ≤ round64 (n : ℚ) := round64_nonneg _ hn'
    have hP1 : 0 ≤ round64 (2 * round64 (n : ℚ)) := round64_nonneg _ (by linarith)
    have hP2 : 0 ≤ round64 (round64 (2 * round64 (n : ℚ)) * round64 (n : ℚ)) :=
      round64_nonneg _ (mul_nonneg hP1 hN)
    have hQ : 0 ≤ round64
        (round64 (round64 (2 * round64 (n : ℚ)) * round64 (n : ℚ)) / 1000000) :=
      round64_nonneg _ (div_nonneg hP2 (by norm_num))
    exact round64_mono (div_le_div_of_nonneg_left hQ h1 h12)
  · intro n1 n2 t ht h1 h12
    rw [benchmarks_mflops, benchmarks_mflops]
    have h1' : (0 : ℚ) ≤ (n1 : ℚ) := by exact_mod_cast h1
    have h12' : (n1 : ℚ) ≤ (n2 : ℚ) := by exact_mod_cast h12
    have hN1 : 0 ≤ round64 (n1 : ℚ) := round64_nonneg _ h1'
    have hN : round64 (n1 : ℚ) ≤ round64 (n2 : ℚ) := round64_mono h12'
    have hP1 : 0 ≤ round64 (2 * round64 (n1 : ℚ)) := round64_nonneg _ (by linarith)
    have hP : round64 (2 * round64 (n1 : ℚ)) ≤ round64 (2 * round64 (n2 : ℚ)) :=
      round64_mono (by linarith)
    have hM : round64 (2 * round64 (n1 : ℚ)) * round64 (n1 : ℚ) ≤
        round64 (2 * round64 (n2 : ℚ)) * round64 (n2 : ℚ) :=
      mul_le_mul hP hN hN1 (le_trans hP1 hP)
    exact round64_mono (div_le_div_of_nonneg_right
      (round64_mono (div_le_div_of_nonneg_right (round64_mono hM) (by norm_num))) ht.le)
  · intro a n t hn ht hmax
    rcases eq_or_lt_of_le hn with h0 | hpos
    · rw [← h0, mul_zero, benchmarks_mflops]
      norm_num [round64_zero]
    · exact mflops_scale_pos a n t (by omega) ht hmax

/-- Sizes 1024 and 2048 at a quarter and half of a second. -/
theorem mflops_monotone_witness :
    (benchmarks 1024 (1 / 2)).1 ≤ (benchmarks 1024 (1 / 4)).1 ∧
    (benchmarks 1024 (1 / 4)).1 ≤ (benchmarks 2048 (1 / 4)).1 ∧
    (benchmarks (2 ^ 1 * 1024) (1 / 4)).1 = ((2 : ℚ) ^ 1) ^ 2 * (benchmarks 1024 (1 / 4)).1 :=
  ⟨mflops_monotone.1 1024 (1 / 4) (1 / 2) (by norm_num) (by norm_num) (by norm_num),
    mflops_monotone.2.1 1024 2048 (1 / 4) (by norm_num) (by norm_num) (by norm_num),
    mflops_monotone.2.2 1 1024 (1 / 4) (by norm_num) (by norm_num)
      quarter_le_huge⟩

/-! ## C10: the buffer layout -/

theorem max_size_eq : max_size = 16384 := by decide

theorem buf_size_eq : buf_size = 536936448 := by decide

theorem layout_eq :
    main.A = 0 ∧ main.Acopy = 268435456 ∧ main.X = 536870912 ∧ main.Xcopy = 536887296 ∧
      main.Y = 536903680 ∧ main.Ycopy = 536920064 := by decide

theorem square_le (n : ℤ) (h0 : 0 ≤ n) (h1 : n ≤ 16384) : 0 ≤ n * n ∧ n * n ≤ 268435456 := by
  constructor <;> nlinarith

theorem test_sizes_range (n : ℤ) (hn : n ∈ test_sizes) : 0 < n ∧ n ≤ 16384 := by
  simp only [test_sizes, List.mem_cons, List.mem_singleton, List.not_mem_nil, or_false] at hn
  omega

/-- C10: `max_size` is the last configured size, no configured size exceeds it, the six
views sit at the offsets `0`, `max_size^2`, `2*max_size^2`, `2*max_size^2 + max_size`,
`2*max_size^2 + 2*max_size`, `2*max_size^2 + 3*max_size` of a block of
`2*max_size^2 + 4*max_size` elements, and for every configured size `n` the views are
pairwise disjoint, lie inside the block, and every index `i*n+j` with `0 ≤ i, j < n` that the
kernel computes is free of `int` overflow and addresses a cell of the `A` view. -/
theorem layout_safe :
    test_sizes.getLast? = some max_size ∧
    buf_size = 2 * max_size ^ 2 + 4 * max_size ∧
    (main.A = 0 ∧ main.Acopy = max_size ^ 2 ∧ main.X = 2 * max_size ^ 2 ∧
      main.Xcopy = 2 * max_size ^ 2 + max_size ∧ main.Y = 2 * max_size ^ 2 + 2 * max_size ∧
      main.Ycopy = 2 * max_size ^ 2 + 3 * max_size) ∧
    ∀ n ∈ test_sizes,
      0 < n ∧ n ≤ max_size ∧
      (views n).Pairwise (fun v w => separate v.1 v.2 w.1 w.2) ∧
      (∀ v ∈ views n, 0 ≤ v.1 ∧ v.1 + v.2 ≤ buf_size) ∧
      ∀ i j : ℤ, 0 ≤ i → i < n → 0 ≤ j → j < n →
        wrapInt (wrapInt (i * n) + j) = i * n + j ∧
        main.A ≤ main.A + wrapInt (wrapInt (i * n) + j) ∧
          main.A + wrapInt (wrapInt (i * n) + j) < main.A + n * n := by
  refine ⟨by decide, by decide, by decide, ?_⟩
  intro n hn
  have hrange := test_sizes_range n hn
  obtain ⟨hA, hAc, hX, hXc, hY, hYc⟩ := layout_eq
  have hsq := square_le n hrange.1.le hrange.2
  refine ⟨hrange.1, by rw [max_size_eq]; exact hrange.2, ?_, ?_, ?_⟩
  · simp only [views, hA, hAc, hX, hXc, hY, hYc, separate, List.pairwise_cons,
      List.mem_cons, List.mem_singleton, List.not_mem_nil, forall_eq_or_imp, forall_eq,
      List.Pairwise.nil, or_false, and_true, IsEmpty.forall_iff, implies_true]
    omega
  · simp only [views, hA, hAc, hX, hXc, hY, hYc, buf_size_eq, List.mem_cons,
      List.mem_singleton, List.not_mem_nil, forall_eq_or_imp, forall_eq, or_false,
      IsEmpty.forall_iff, implies_true, and_true]
    omega
  · intro i j hi0 hi hj0 hj
    rw [index_fits_int n i j (by omega) hi0 hi hj0 hj]
    have := index_in_matrix n i j hi0 hi hj0 hj
    omega

/-- The layout at the first configured size. -/
theorem layout_safe_witness :
    (1024 : ℤ) ∈ test_sizes ∧ (1024 : ℤ) ≤ max_size ∧
    (views 1024).Pairwise (fun v w => separate v.1 v.2 w.1 w.2) :=
  ⟨by decide, (layout_safe.2.2.2 1024 (by decide)).2.1,
    (layout_safe.2.2.2 1024 (by decide)).2.2.1⟩

/-! ## C9: the reference runs on the snapshot -/

/-- For a size up to `max_size` the three `memcpy` calls copy `A[0..n*n)`, `X[0..n)`,
`Y[0..n)` into the copies and change nothing else. -/
theorem snapshot_eq (n : ℤ) (h0 : 0 ≤ n) (h1 : n ≤ 16384) (m : Mem) (a : ℤ) :
    snapshot n m a =
      if 536920064 ≤ a ∧ a < 536920064 + n then m (536903680 + (a - 536920064))
      else if 536887296 ≤ a ∧ a < 536887296 + n then m (536870912 + (a - 536887296))
      else if 268435456 ≤ a ∧ a < 268435456 + n * n then m (0 + (a - 268435456))
      else m a := by
  obtain ⟨hA, hAc, hX, hXc, hY, hYc⟩ := layout_eq
  have hsq := square_le n h0 h1
  have w1 : wrapSize n = n := by
    unfold wrapSize; exact Int.emod_eq_of_lt (by omega) (by omega)
  have w2 : wrapSize (8 * n) = 8 * n := by
    unfold wrapSize; exact Int.emod_eq_of_lt (by omega) (by omega)
  have w3 : wrapSize (8 * n * n) = 8 * (n * n) := by
    unfold wrapSize
    rw [mul_assoc]
    exact Int.emod_eq_of_lt (by omega) (by omega)
  have d1 : 8 * n / 8 = n := by omega
  have d2 : 8 * (n * n) / 8 = n * n := by omega
  unfold snapshot memcpy
  simp only [hA, hAc, hX, hXc, hY, hYc, w1, w2, w3, d1, d2]
  by_cases c1 : 536920064 ≤ a ∧ a < 536920064 + n
  · rw [if_pos c1, if_pos c1, if_neg (by omega), if_neg (by omega)]
  · rw [if_neg c1, if_neg c1]
    by_cases c2 : 536887296 ≤ a ∧ a < 536887296 + n
    · rw [if_pos c2, if_pos c2, if_neg (by omega)]
    · rw [if_neg c2, if_neg c2]

/-- The memory `reference_dgemv` is invoked on, in terms of the generated memory: the three
copies hold the generated `A`, `X`, `Y`, and outside `Y[0..n-1]` it is the snapshot. -/
theorem before_reference_eq (sched : ℤ → Reduction) (n : ℤ) (h0 : 0 ≤ n) (h1 : n ≤ 16384)
    (s : Rng × Mem) :
    (∀ k : ℤ, 0 ≤ k → k < n * n →
      before_reference sched n s (main.Acopy + k) = (generate n s).2 (main.A + k)) ∧
    (∀ k : ℤ, 0 ≤ k → k < n →
      before_reference sched n s (main.Xcopy + k) = (generate n s).2 (main.X + k)) ∧
    (∀ k : ℤ, 0 ≤ k → k < n →
      before_reference sched n s (main.Ycopy + k) = (generate n s).2 (main.Y + k)) ∧
    (∀ a : ℤ, ¬ (main.Y ≤ a ∧ a < main.Y + n) →
      before_reference sched n s a = snapshot n (generate n s).2 a) := by
  obtain ⟨hA, hAc, hX, hXc, hY, hYc⟩ := layout_eq
  have hsq := square_le n h0 h1
  have hframe : ∀ a : ℤ, ¬ (main.Y ≤ a ∧ a < main.Y + n) →
      before_reference sched n s a = snapshot n (generate n s).2 a := fun a ha =>
    my_dgemv_outside sched n main.A main.X main.Y _ a ha
  refine ⟨?_, ?_, ?_, hframe⟩
  · intro k hk0 hk
    rw [hframe (main.Acopy + k) (by rw [hAc, hY]; omega), snapshot_eq n h0 h1, hAc, hA,
      if_neg (by omega), if_neg (by omega), if_pos (by omega),
      show (268435456 + k - 268435456 : ℤ) = k by omega]
  · intro k hk0 hk
    rw [hframe (main.Xcopy + k) (by rw [hXc, hY]; omega), snapshot_eq n h0 h1, hXc, hX,
      if_neg (by omega), if_pos (by omega),
      show (536887296 + k - 536887296 : ℤ) = k by omega]
  · intro k hk0 hk
    rw [hframe (main.Ycopy + k) (by rw [hYc, hY]; omega), snapshot_eq n h0 h1, hYc, hY,
      if_pos (by omega), show (536920064 + k - 536920064 : ℤ) = k by omega]

/-- C9: in the iteration for a configured size `n`, from any state and whatever the
reduction orders of the kernel, `reference_dgemv` is invoked on `Acopy`, `Xcopy`, `Ycopy` in
a memory where `Acopy[0..n*n)`, `Xcopy[0..n)`, `Ycopy[0..n)` hold the values `A`, `X`, `Y`
had right after the three `fill` calls, and the kernel call in between has changed no cell
of the three copies. -/
theorem reference_runs_on_snapshot (sched : ℤ → Reduction) (n : ℤ) (hn : n ∈ test_sizes)
    (duration : Double) (s : State) :
    (iteration sched n duration s).mem =
      reference_dgemv n main.Acopy main.Xcopy main.Ycopy
        (before_reference sched n (s.gen, s.mem)) ∧
    (∀ k : ℤ, 0 ≤ k → k < n * n →
      before_reference sched n (s.gen, s.mem) (main.Acopy + k) =
        (generate n (s.gen, s.mem)).2 (main.A + k)) ∧
    (∀ k : ℤ, 0 ≤ k → k < n →
      before_reference sched n (s.gen, s.mem) (main.Xcopy + k) =
        (generate n (s.gen, s.mem)).2 (main.X + k)) ∧
    (∀ k : ℤ, 0 ≤ k → k < n →
      before_reference sched n (s.gen, s.mem) (main.Ycopy + k) =
        (generate n (s.gen, s.mem)).2 (main.Y + k)) ∧
    (∀ a : ℤ, (main.Acopy ≤ a ∧ a < main.Acopy + n * n) ∨
        (main.Xcopy ≤ a ∧ a < main.Xcopy + n) ∨ (main.Ycopy ≤ a ∧ a < main.Ycopy + n) →
      my_dgemv sched n main.A main.X main.Y (snapshot n (generate n (s.gen, s.mem)).2) a =
        snapshot n (generate n (s.gen, s.mem)).2 a) := by
  have hr := test_sizes_range n hn
  have h := before_reference_eq sched n hr.1.le hr.2 (s.gen, s.mem)
  refine ⟨rfl, h.1, h.2.1, h.2.2.1, ?_⟩
  intro a ha
  obtain ⟨hA, hAc, hX, hXc, hY, hYc⟩ := layout_eq
  have hsq := square_le n hr.1.le hr.2
  apply my_dgemv_outside
  rw [hAc, hXc, hYc] at ha
  rw [hY]
  omega

/-- The iteration for `n = 1024` from the starting state, the kernel reducing in loop
order. -/
theorem reference_runs_on_snapshot_witness :
    (1024 : ℤ) ∈ test_sizes ∧
    (∀ k : ℤ, 0 ≤ k → k < 1024 * 1024 →
      before_reference (loopOrder 1024) 1024 (startState.gen, startState.mem)
          (main.Acopy + k) =
        (generate 1024 (startState.gen, startState.mem)).2 (main.A + k)) ∧
    (∀ k : ℤ, 0 ≤ k → k < 1024 →
      before_reference (loopOrder 1024) 1024 (startState.gen, startState.mem)
          (main.Ycopy + k) =
        (generate 1024 (startState.gen, startState.mem)).2 (main.Y + k)) :=
  ⟨by decide,
    (reference_runs_on_snapshot (loopOrder 1024) 1024 (by decide) 1 startState).2.1,
    (reference_runs_on_snapshot (loopOrder 1024) 1024 (by decide) 1 startState).2.2.2.1⟩

end Dgemv
